import Mathlib

/-!
Verification of the reactivity engine in `src/7.立即执行的watch和回调执行时机/index.js`
(with the batching scheduler usage from `src/4.调度执行/index.js`).

The JavaScript program is shallowly embedded as a fuel-indexed interpreter over
an explicit system state `Sys` that mirrors the module-level mutable state of
the source: the `bucket` WeakMap, `activeEffect`, the `effectStack`, the effect
registry (each effect's wrapped function, options and `deps` reverse index),
the `jobQueue` Set with its `isFlushing` flag, the pending microtask queue, and
the records backing `computed` handles and `watch` registrations.

User-supplied effect bodies are deeply embedded as a small expression language
`PExp` whose reads and writes go through the reactive proxy (`track` on get,
`trigger` on set), exactly as in the source.  Every interesting runtime action
is recorded in an event trace so that scheduling and invocation claims can be
stated about what actually happened during a run.
-/

set_option maxHeartbeats 1000000

namespace VueReact

abbrev EffId := Nat
abbrev Target := Nat
abbrev Key := String

/-- Runtime values: JS primitives restricted to what the engine manipulates,
plus object references (used by `watch`'s deep traversal). -/
inductive Val where
  | undef
  | num (n : Int)
  | boolV (b : Bool)
  | strV (s : String)
  | ref (t : Target)
  deriving DecidableEq, Repr

/-- Identity of a container used as a `bucket` key: either a plain data object
(behind the reactive proxy) or the synthetic object of a `computed` handle,
which `computed` uses as its own container under the key `"value"`. -/
inductive CKey where
  | data (t : Target)
  | comp (c : Nat)
  deriving DecidableEq, Repr

/-- Deep embedding of user function bodies.  Property reads/writes go through
the reactive proxy (so they `track` / `trigger`). `cond` gives the conditional
reads that make cleanup observable; `throwErr` models a user function that
throws; `readComputed` reads a computed handle's `.value`. -/
inductive PExp where
  | lit (v : Val)
  | readProp (t : Target) (k : Key)
  | writeProp (t : Target) (k : Key) (e : PExp)
  | seq (a b : PExp)
  | add (a b : PExp)
  | cond (c t e : PExp)
  | throwErr
  | readComputed (c : Nat)
  deriving DecidableEq, Repr

/-- The function wrapped by an effect: either an embedded expression, or
`() => traverse(source)` as built by `watch` for a non-function source. -/
inductive FnBody where
  | prog (p : PExp)
  | traverseSrc (t : Target)
  deriving DecidableEq, Repr

/-- The schedulers that appear in the source: the jobQueue batching scheduler
(from `src/4.调度执行/index.js`), the `computed` invalidation scheduler, and the
`watch` scheduler (which defers the job when `flush === 'post'`). -/
inductive Sched where
  | batch
  | computedSched (c : Nat)
  | watchSched (w : Nat)
  deriving DecidableEq, Repr

/-- `options` of an effect: an optional scheduler and the `lazy` flag. -/
structure EffOptions where
  scheduler : Option Sched := none
  lazy : Bool := false
  deriving DecidableEq, Repr

/-- An entry of the effect registry: the wrapped function, its options and its
`deps` reverse index.  A dependency Set is identified by its `(container, key)`
pair, which is faithful because the source creates at most one Set per pair and
never replaces it. -/
structure EffectRec where
  fn : FnBody
  opts : EffOptions
  deps : List (CKey × Key)
  deriving DecidableEq, Repr

/-- The closure state of a `computed` handle: its inner lazy effect, the cached
`_value` and the `dirty` flag. -/
structure CompRec where
  effId : EffId
  cache : Val
  dirty : Bool
  deriving DecidableEq, Repr

/-- The closure state of a `watch` registration: its lazy effect, whether
`options.flush === 'post'`, and the `oldValue` slot. -/
structure WatchRec where
  effId : EffId
  flushPost : Bool
  oldValue : Val
  deriving DecidableEq, Repr

/-- A pending microtask: the `flushJob` flush, or a deferred `watch` job. -/
inductive MTask where
  | flushTask
  | watchJob (w : Nat)
  deriving DecidableEq, Repr

/-- Trace events recorded by the interpreter. -/
inductive Ev where
  | trackCall (ck : CKey) (k : Key)
  | trackEv (e : EffId) (ck : CKey) (k : Key)
  | getEv (t : Target) (k : Key) (v : Val)
  | runStart (e : EffId)
  | runEnd (e : EffId)
  | trigEv (ck : CKey) (k : Key)
  | invokeEv (tid : Nat) (e : EffId)
  | schedEv (e : EffId)
  | jobExecEv (e : EffId)
  | cbCall (w : Nat) (newV oldV : Val)
  | compReadEv (c : Nat)
  | invalidateEv (c : Nat)
  deriving DecidableEq, Repr

inductive Err where
  | thrown
  | fuelOut
  deriving DecidableEq, Repr

/-- The full mutable state of the module. -/
structure Sys where
  store : List (Target × List (Key × Val))
  proxies : List Target
  bucket : List (CKey × List (Key × List EffId))
  activeEffect : Option EffId
  effectStack : List EffId
  effects : List (EffId × EffectRec)
  nextId : Nat
  comps : List (Nat × CompRec)
  nextComp : Nat
  watches : List (Nat × WatchRec)
  nextWatch : Nat
  jobQueue : List EffId
  isFlushing : Bool
  microtasks : List MTask
  nextTrig : Nat
  seen : List Target
  deriving DecidableEq, Repr

/-- First-match association list lookup (JS `Map.get` / property access). -/
def alistGet {α β : Type} [DecidableEq α] : List (α × β) → α → Option β
  | [], _ => none
  | (x, b) :: rest, a => if x = a then some b else alistGet rest a

/-- Association list update; inserts at the end when the key is absent
(JS `Map.set` / property assignment preserves insertion order). -/
def alistSet {α β : Type} [DecidableEq α] : List (α × β) → α → β → List (α × β)
  | [], a, b => [(a, b)]
  | (x, c) :: rest, a, b =>
      if x = a then (x, b) :: rest else (x, c) :: alistSet rest a b

def getStoreVal (s : Sys) (t : Target) (k : Key) : Val :=
  match alistGet s.store t with
  | none => .undef
  | some kvs => (alistGet kvs k).getD .undef

def setStoreVal (s : Sys) (t : Target) (k : Key) (v : Val) : Sys :=
  { s with store := alistSet s.store t (alistSet ((alistGet s.store t).getD []) k v) }

/-- JS `Set.add`: append if not already a member (insertion order preserved). -/
def addEffToSet (l : List EffId) (e : EffId) : List EffId :=
  if e ∈ l then l else l ++ [e]

/-- The dependency Set for `(ck, key)`: empty when either map level is absent. -/
def bucketSet (s : Sys) (ck : CKey) (k : Key) : List EffId :=
  (alistGet ((alistGet s.bucket ck).getD []) k).getD []

def bucketAdd (s : Sys) (ck : CKey) (k : Key) (e : EffId) : Sys :=
  let m := (alistGet s.bucket ck).getD []
  let ds := (alistGet m k).getD []
  { s with bucket := alistSet s.bucket ck (alistSet m k (addEffToSet ds e)) }

/-- `deps.delete(effectFn)` for one dependency Set. -/
def bucketRemove (s : Sys) (ck : CKey) (k : Key) (e : EffId) : Sys :=
  match alistGet s.bucket ck with
  | none => s
  | some m =>
    match alistGet m k with
    | none => s
    | some ds =>
        { s with bucket := alistSet s.bucket ck (alistSet m k (ds.filter (fun f => f ≠ e))) }

def depsOf (s : Sys) (e : EffId) : List (CKey × Key) :=
  match alistGet s.effects e with
  | none => []
  | some r => r.deps

def setDeps (s : Sys) (e : EffId) (d : List (CKey × Key)) : Sys :=
  match alistGet s.effects e with
  | none => s
  | some r => { s with effects := alistSet s.effects e { r with deps := d } }

/-- `track(target, key)`: no-op when there is no active effect; otherwise add
the active effect to the dependency Set of `(target, key)` and push that Set
onto the active effect's `deps` list. -/
def track (s : Sys) (ck : CKey) (k : Key) : Sys × List Ev :=
  match s.activeEffect with
  | none => (s, [.trackCall ck k])
  | some e =>
      let s1 := bucketAdd s ck k e
      let s2 := setDeps s1 e (depsOf s1 e ++ [(ck, k)])
      (s2, [.trackCall ck k, .trackEv e ck k])

/-- `cleanup(effectFn)`: delete the effect from every Set recorded in its
`deps` list, then empty the list. -/
def cleanup (s : Sys) (e : EffId) : Sys :=
  let s1 := (depsOf s e).foldl (fun acc p => bucketRemove acc p.1 p.2 e) s
  setDeps s1 e []

/-- The `effectsToRun` snapshot computed at the start of `trigger`: the
dependency Set of `(target, key)` minus the currently active effect. -/
def triggerSnapshot (s : Sys) (ck : CKey) (k : Key) : List EffId :=
  (bucketSet s ck k).filter (fun f => some f ≠ s.activeEffect)

instance {α β : Type} [DecidableEq α] [DecidableEq β] : DecidableEq (Except α β) :=
  fun a b =>
    match a, b with
    | .error x, .error y => decidable_of_iff (x = y) (by simp)
    | .error _, .ok _ => isFalse (by simp)
    | .ok _, .error _ => isFalse (by simp)
    | .ok x, .ok y => decidable_of_iff (x = y) (by simp)

/-- Result of an interpreter call: final state, trace, value or error. -/
structure Out where
  s : Sys
  tr : List Ev
  res : Except Err Val
  deriving DecidableEq, Repr

/-- JS truthiness for the values we model. -/
def truthy : Val → Bool
  | .undef => false
  | .boolV b => b
  | .num n => n ≠ 0
  | .strV st => st ≠ ""
  | .ref _ => true

/-- Numeric addition (the only arithmetic the modelled programs use). -/
def valAdd : Val → Val → Val
  | .num a, .num b => .num (a + b)
  | _, _ => Val.undef

/-- The mutually recursive entry points of the engine, defunctionalised so the
whole interpreter is a single fuel-indexed function. -/
inductive Call where
  | evalE (p : PExp)
  | runEff (e : EffId)
  | trig (ck : CKey) (k : Key)
  | trigList (tid : Nat) (l : List EffId)
  | schedC (sc : Sched) (e : EffId)
  | compRead (c : Nat)
  | watchJobC (w : Nat)
  | trav (v : Val)
  | travKeys (t : Target) (kvs : List (Key × Val))
  | flushIdx (i : Nat)
  | drain
  deriving DecidableEq, Repr

/-- effectFn entry: cleanup, then push the effect onto the stack and make
it active. -/
def pushEff (s : Sys) (e : EffId) : Sys :=
  { cleanup s e with activeEffect := some e,
                     effectStack := (cleanup s e).effectStack ++ [e] }

/-- traverse-based getters additionally reset the seen set before running. -/
def pushEffT (s : Sys) (e : EffId) : Sys :=
  { pushEff s e with seen := [] }

/-- The interpreter.  Each case is a direct transcription of the corresponding
source function; see the per-case comments. -/
def interp : Nat → Sys → Call → Out
  | 0, s, _ => ⟨s, [], .error .fuelOut⟩
  | fuel + 1, s, c =>
    match c with
    | .evalE p =>
      match p with
      | .lit v => ⟨s, [], .ok v⟩
      | .readProp t k =>
          -- proxy get trap: track(target, key); return target[key]
          let pr := track s (.data t) k
          let v := getStoreVal pr.1 t k
          ⟨pr.1, pr.2 ++ [.getEv t k v], .ok v⟩
      | .writeProp t k e =>
          -- proxy set trap: target[key] = newVal; trigger(target, key)
          let o := interp fuel s (.evalE e)
          match o.res with
          | .error er => ⟨o.s, o.tr, .error er⟩
          | .ok v =>
              let s1 := setStoreVal o.s t k v
              let o2 := interp fuel s1 (.trig (.data t) k)
              match o2.res with
              | .error er => ⟨o2.s, o.tr ++ o2.tr, .error er⟩
              | .ok _ => ⟨o2.s, o.tr ++ o2.tr, .ok v⟩
      | .seq a b =>
          let o := interp fuel s (.evalE a)
          match o.res with
          | .error er => ⟨o.s, o.tr, .error er⟩
          | .ok _ =>
              let o2 := interp fuel o.s (.evalE b)
              ⟨o2.s, o.tr ++ o2.tr, o2.res⟩
      | .add a b =>
          let o := interp fuel s (.evalE a)
          match o.res with
          | .error er => ⟨o.s, o.tr, .error er⟩
          | .ok v1 =>
              let o2 := interp fuel o.s (.evalE b)
              match o2.res with
              | .error er => ⟨o2.s, o.tr ++ o2.tr, .error er⟩
              | .ok v2 => ⟨o2.s, o.tr ++ o2.tr, .ok (valAdd v1 v2)⟩
      | .cond cnd th el =>
          let o := interp fuel s (.evalE cnd)
          match o.res with
          | .error er => ⟨o.s, o.tr, .error er⟩
          | .ok v =>
              let o2 := interp fuel o.s (.evalE (if truthy v then th else el))
              ⟨o2.s, o.tr ++ o2.tr, o2.res⟩
      | .throwErr => ⟨s, [], .error .thrown⟩
      | .readComputed c => interp fuel s (.compRead c)
    | .runEff e =>
      -- effectFn: cleanup; push self, set active; run fn; pop, restore active.
      -- There is no try/finally in the source, so on a throw the pop and the
      -- restore are skipped and the error propagates.
      match alistGet s.effects e with
      | none => ⟨s, [.runStart e], .error .thrown⟩
      | some r =>
          let s3 := match r.fn with
                    | .traverseSrc _ => pushEffT s e
                    | _ => pushEff s e
          let body : Call := match r.fn with
                    | .prog p => .evalE p
                    | .traverseSrc t => .trav (.ref t)
          let o := interp fuel s3 body
          match o.res with
          | .error er => ⟨o.s, .runStart e :: o.tr, .error er⟩
          | .ok v =>
              let st := o.s.effectStack.dropLast
              let s4 := { o.s with effectStack := st, activeEffect := st.getLast? }
              ⟨s4, .runStart e :: (o.tr ++ [.runEnd e]), .ok v⟩
    | .trig ck k =>
      -- trigger: look up the Set, snapshot it minus the active effect, then
      -- iterate the snapshot, calling the scheduler when there is one.
      match alistGet s.bucket ck with
      | none => ⟨s, [.trigEv ck k], .ok .undef⟩
      | some m =>
          let effs := (alistGet m k).getD []
          let toRun := effs.filter (fun f => some f ≠ s.activeEffect)
          let tid := s.nextTrig
          let s1 := { s with nextTrig := s.nextTrig + 1 }
          let o := interp fuel s1 (.trigList tid toRun)
          ⟨o.s, .trigEv ck k :: o.tr, o.res⟩
    | .trigList tid l =>
      match l with
      | [] => ⟨s, [], .ok .undef⟩
      | e :: rest =>
          let o := match (alistGet s.effects e).bind (fun r => r.opts.scheduler) with
                   | some sc => interp fuel s (.schedC sc e)
                   | none => interp fuel s (.runEff e)
          match o.res with
          | .error er => ⟨o.s, .invokeEv tid e :: o.tr, .error er⟩
          | .ok _ =>
              let o2 := interp fuel o.s (.trigList tid rest)
              ⟨o2.s, .invokeEv tid e :: (o.tr ++ o2.tr), o2.res⟩
    | .schedC sc e =>
      match sc with
      | .batch =>
          -- jobQueue.add(fn); flushJob()
          let s1 := { s with jobQueue := addEffToSet s.jobQueue e }
          let s2 := if s1.isFlushing then s1
                    else { s1 with isFlushing := true,
                                   microtasks := s1.microtasks ++ [.flushTask] }
          ⟨s2, [.schedEv e], .ok .undef⟩
      | .computedSched c =>
          -- if (!dirty) then dirty = true; trigger(handle, 'value')
          match alistGet s.comps c with
          | none => ⟨s, [.schedEv e], .ok .undef⟩
          | some cr =>
              if cr.dirty then ⟨s, [.schedEv e], .ok .undef⟩
              else
                let s1 := { s with comps := alistSet s.comps c { cr with dirty := true } }
                let o := interp fuel s1 (.trig (.comp c) "value")
                ⟨o.s, .schedEv e :: .invalidateEv c :: o.tr, o.res⟩
      | .watchSched w =>
          -- if flush === 'post' defer the job to a fresh microtask, else run it
          match alistGet s.watches w with
          | none => ⟨s, [.schedEv e], .ok .undef⟩
          | some wr =>
              if wr.flushPost then
                ⟨{ s with microtasks := s.microtasks ++ [.watchJob w] },
                 [.schedEv e], .ok .undef⟩
              else
                let o := interp fuel s (.watchJobC w)
                ⟨o.s, .schedEv e :: o.tr, o.res⟩
    | .compRead c =>
      -- the computed `value` getter
      match alistGet s.comps c with
      | none => ⟨s, [], .error .thrown⟩
      | some cr =>
          if cr.dirty then
            let o := interp fuel s (.runEff cr.effId)
            match o.res with
            | .error er => ⟨o.s, o.tr, .error er⟩
            | .ok v =>
                let s1 := { o.s with
                  comps := alistSet o.s.comps c { cr with cache := v, dirty := false } }
                let pr := track s1 (.comp c) "value"
                ⟨pr.1, o.tr ++ pr.2 ++ [.compReadEv c], .ok v⟩
          else
            let pr := track s (.comp c) "value"
            ⟨pr.1, pr.2 ++ [.compReadEv c], .ok cr.cache⟩
    | .watchJobC w =>
      -- job: newValue = effectFn(); cb(newValue, oldValue); oldValue = newValue
      match alistGet s.watches w with
      | none => ⟨s, [], .error .thrown⟩
      | some _ =>
          let o := interp fuel s (.runEff (match alistGet s.watches w with
                                           | some wr => wr.effId
                                           | none => 0))
          match o.res with
          | .error er => ⟨o.s, o.tr, .error er⟩
          | .ok nv =>
              match alistGet o.s.watches w with
              | none => ⟨o.s, o.tr, .error .thrown⟩
              | some wr2 =>
                  let s1 := { o.s with
                    watches := alistSet o.s.watches w { wr2 with oldValue := nv } }
                  ⟨s1, o.tr ++ [.cbCall w nv wr2.oldValue], .ok .undef⟩
    | .trav v =>
      -- traverse: return unless value is an unseen object; mark seen, then
      -- read every own property (proxied reads track) and recurse.
      match v with
      | .ref t =>
          if t ∈ s.seen then ⟨s, [], .ok .undef⟩
          else
            let s1 := { s with seen := s.seen ++ [t] }
            interp fuel s1 (.travKeys t ((alistGet s1.store t).getD []))
      | _ => ⟨s, [], .ok .undef⟩
    | .travKeys t kvs =>
      match kvs with
      | [] => ⟨s, [], .ok (.ref t)⟩
      | (k, _) :: rest =>
          let pr : Sys × List Ev :=
            if t ∈ s.proxies then
              let pr0 := track s (.data t) k
              (pr0.1, pr0.2 ++ [.getEv t k (getStoreVal pr0.1 t k)])
            else (s, [])
          let child := getStoreVal pr.1 t k
          let o := interp fuel pr.1 (.trav child)
          match o.res with
          | .error er => ⟨o.s, pr.2 ++ o.tr, .error er⟩
          | .ok _ =>
              let o2 := interp fuel o.s (.travKeys t rest)
              ⟨o2.s, pr.2 ++ o.tr ++ o2.tr, o2.res⟩
    | .flushIdx i =>
      -- jobQueue.forEach(job => job()): index iteration is faithful because
      -- nothing ever deletes from jobQueue, so growth only appends.
      -- The `.finally` resets isFlushing even when a job throws.
      match (s.jobQueue.drop i).head? with
      | none => ⟨{ s with isFlushing := false }, [], .ok .undef⟩
      | some j =>
          let o := interp fuel s (.runEff j)
          match o.res with
          | .error er => ⟨{ o.s with isFlushing := false },
                          .jobExecEv j :: o.tr, .error er⟩
          | .ok _ =>
              let o2 := interp fuel o.s (.flushIdx (i + 1))
              ⟨o2.s, .jobExecEv j :: (o.tr ++ o2.tr), o2.res⟩
    | .drain =>
      -- run pending microtasks in FIFO order until none remain
      match s.microtasks with
      | [] => ⟨s, [], .ok .undef⟩
      | m :: rest =>
          let s1 := { s with microtasks := rest }
          let o := match m with
                   | .flushTask => interp fuel s1 (.flushIdx 0)
                   | .watchJob w => interp fuel s1 (.watchJobC w)
          match o.res with
          | .error er => ⟨o.s, o.tr, .error er⟩
          | .ok _ =>
              let o2 := interp fuel o.s .drain
              ⟨o2.s, o.tr ++ o2.tr, o2.res⟩

/-- Source of a `watch` call: a reactive container (deep-traversed) or a
getter function. -/
inductive WatchSrc where
  | container (t : Target)
  | getterFn (p : PExp)
  deriving DecidableEq, Repr

structure WatchOpts where
  immediate : Bool := false
  flushPost : Bool := false
  deriving DecidableEq, Repr

/-- Top-level host operations (module-level statements of the source files). -/
inductive Op where
  | registerEffect (fn : FnBody) (opts : EffOptions)
  | writeOp (t : Target) (k : Key) (v : Val)
  | incOp (t : Target) (k : Key)
  | creadOp (c : Nat)
  | newComputed (getter : PExp)
  | newWatch (src : WatchSrc) (wo : WatchOpts)
  | drainOp
  deriving DecidableEq, Repr

/-- Execute one host operation.  `registerEffect` is `effect(fn, options)`;
`newComputed` is `computed(getter)`; `newWatch` is `watch(source, cb, options)`
with the callback kept opaque (its invocations are recorded as trace events);
`drainOp` lets the host's microtask queue run to completion. -/
def runOp (fuel : Nat) (s : Sys) (op : Op) : Out :=
  match op with
  | .registerEffect fn opts =>
      let e := s.nextId
      let s1 := { s with nextId := e + 1,
                         effects := s.effects ++ [(e, ⟨fn, opts, []⟩)] }
      if opts.lazy then ⟨s1, [], .ok .undef⟩
      else interp fuel s1 (.runEff e)
  | .writeOp t k v => interp fuel s (.evalE (.writeProp t k (.lit v)))
  | .incOp t k =>
      interp fuel s (.evalE (.writeProp t k (.add (.readProp t k) (.lit (.num 1)))))
  | .creadOp c => interp fuel s (.evalE (.readComputed c))
  | .newComputed getter =>
      let c := s.nextComp
      let e := s.nextId
      let s1 := { s with nextComp := c + 1, nextId := e + 1,
                         effects := s.effects ++
                           [(e, ⟨.prog getter, ⟨some (.computedSched c), true⟩, []⟩)],
                         comps := s.comps ++ [(c, ⟨e, .undef, true⟩)] }
      ⟨s1, [], .ok .undef⟩
  | .newWatch src wo =>
      let w := s.nextWatch
      let e := s.nextId
      let body : FnBody := match src with
        | .container t => .traverseSrc t
        | .getterFn p => .prog p
      let s1 := { s with nextWatch := w + 1, nextId := e + 1,
                         effects := s.effects ++
                           [(e, ⟨body, ⟨some (.watchSched w), true⟩, []⟩)],
                         watches := s.watches ++ [(w, ⟨e, wo.flushPost, .undef⟩)] }
      if wo.immediate then interp fuel s1 (.watchJobC w)
      else
        -- oldValue = effectFn()
        let o := interp fuel s1 (.runEff e)
        match o.res with
        | .error er => ⟨o.s, o.tr, .error er⟩
        | .ok v =>
            match alistGet o.s.watches w with
            | none => ⟨o.s, o.tr, .ok .undef⟩
            | some wr =>
                ⟨{ o.s with watches := alistSet o.s.watches w { wr with oldValue := v } },
                 o.tr, .ok .undef⟩
  | .drainOp => interp fuel s .drain

def runOps (fuel : Nat) (s : Sys) : List Op → Out
  | [] => ⟨s, [], .ok .undef⟩
  | op :: rest =>
      let o := runOp fuel s op
      match o.res with
      | .error er => ⟨o.s, o.tr, .error er⟩
      | .ok _ =>
          let o2 := runOps fuel o.s rest
          ⟨o2.s, o.tr ++ o2.tr, o2.res⟩

def initSys (store : List (Target × List (Key × Val))) (proxies : List Target) : Sys :=
  ⟨store, proxies, [], none, [], [], 0, [], 0, [], 0, [], false, [], 0, []⟩

/-! Trace measurements. -/

/-- The `(container, key)` pairs tracked for effect `e`, in order. -/
def attrReads (e : EffId) (tr : List Ev) : List (CKey × Key) :=
  tr.filterMap (fun ev => match ev with
    | .trackEv e2 ck k => if e2 = e then some (ck, k) else none
    | _ => none)

def countRunStart (e : EffId) (tr : List Ev) : Nat :=
  tr.countP (fun ev => ev = .runStart e)

def countCbW (w : Nat) (tr : List Ev) : Nat :=
  tr.countP (fun ev => match ev with
    | .cbCall w2 _ _ => w2 = w
    | _ => false)

def countJobExec (e : EffId) (tr : List Ev) : Nat :=
  tr.countP (fun ev => ev = .jobExecEv e)

/-- The effects directly invoked by the trigger call with id `tid`, in order. -/
def invokesOf (tid : Nat) (tr : List Ev) : List EffId :=
  tr.filterMap (fun ev => match ev with
    | .invokeEv t2 e => if t2 = tid then some e else none
    | _ => none)

def countTrigC (c : Nat) (tr : List Ev) : Nat :=
  tr.countP (fun ev => ev = .trigEv (.comp c) "value")

end VueReact

namespace VueReact

/-! ### Association list and bucket lemmas -/

theorem alistGet_alistSet {α β : Type} [DecidableEq α]
    (l : List (α × β)) (a : α) (b : β) (x : α) :
    alistGet (alistSet l a b) x = if a = x then some b else alistGet l x := by
  induction l with
  | nil => simp [alistGet, alistSet]
  | cons hd tl ih =>
      obtain ⟨y, c⟩ := hd
      by_cases hya : y = a
      · subst hya
        by_cases hyx : y = x <;> simp [alistGet, alistSet, hyx]
      · by_cases hyx : y = x
        · subst hyx
          have hay : ¬a = y := fun h => hya h.symm
          simp [alistGet, alistSet, hya, hay]
        · simp [alistGet, alistSet, hya, hyx, ih]

theorem alistGet_mem {α β : Type} [DecidableEq α]
    {l : List (α × β)} {a : α} {b : β} (h : alistGet l a = some b) : (a, b) ∈ l := by
  induction l with
  | nil => simp [alistGet] at h
  | cons hd tl ih =>
      obtain ⟨y, c⟩ := hd
      by_cases hya : y = a
      · subst hya
        simp [alistGet] at h
        simp [h]
      · simp [alistGet, hya] at h
        simp [ih h]

theorem mem_addEffToSet {l : List EffId} {e E : EffId} :
    E ∈ addEffToSet l e ↔ (E ∈ l ∨ E = e) := by
  unfold addEffToSet
  by_cases h : e ∈ l
  · simp [h]
    intro he; subst he; exact h
  · simp [h, or_comm]

theorem bucketSet_bucketAdd (s : Sys) (ck : CKey) (k : Key) (e : EffId)
    (ck' : CKey) (k' : Key) :
    bucketSet (bucketAdd s ck k e) ck' k' =
      if ck = ck' ∧ k = k' then addEffToSet (bucketSet s ck k) e
      else bucketSet s ck' k' := by
  simp only [bucketAdd, bucketSet, alistGet_alistSet]
  by_cases hc : ck = ck'
  · subst hc
    simp only [if_pos rfl, Option.getD_some, alistGet_alistSet, true_and]
    by_cases hk : k = k'
    · subst hk; simp [alistGet_alistSet]
    · simp [hk, alistGet_alistSet]
  · simp [hc]

theorem bucketSet_bucketRemove (s : Sys) (ck : CKey) (k : Key) (e : EffId)
    (ck' : CKey) (k' : Key) :
    bucketSet (bucketRemove s ck k e) ck' k' =
      if ck = ck' ∧ k = k' then (bucketSet s ck k).filter (fun f => f ≠ e)
      else bucketSet s ck' k' := by
  unfold bucketRemove
  cases hb : alistGet s.bucket ck with
  | none =>
      have h0 : bucketSet s ck k = [] := by simp [bucketSet, hb, alistGet]
      by_cases hc : ck = ck' ∧ k = k'
      · obtain ⟨h1, h2⟩ := hc; subst h1; subst h2; simp [h0]
      · simp [hc]
  | some m =>
      cases hk0 : alistGet m k with
      | none =>
          have h0 : bucketSet s ck k = [] := by simp [bucketSet, hb, hk0]
          by_cases hc : ck = ck' ∧ k = k'
          · obtain ⟨h1, h2⟩ := hc; subst h1; subst h2; simp [hk0, h0]
          · simp [hk0, hc]
      | some ds =>
          have hds : bucketSet s ck k = ds := by simp [bucketSet, hb, hk0]
          simp only [hk0, bucketSet, alistGet_alistSet]
          by_cases hc : ck = ck'
          · subst hc
            simp only [if_pos rfl, Option.getD_some, alistGet_alistSet, true_and]
            by_cases hk : k = k'
            · subst hk; simp [alistGet_alistSet, hb, hk0]
            · simp [alistGet_alistSet, hk, hb]
          · simp [hc, hb]

end VueReact

namespace VueReact

/-! ### Shapes, wellformedness, and the dirty-flag automaton -/

/-- The immutable part of an effect registry entry (function and options). -/
def effShape (s : Sys) (x : EffId) : Option (FnBody × EffOptions) :=
  (alistGet s.effects x).map (fun r => (r.fn, r.opts))

def compEffOf (s : Sys) (x : Nat) : Option EffId :=
  (alistGet s.comps x).map (fun r => r.effId)

def watchShape (s : Sys) (x : Nat) : Option (EffId × Bool) :=
  (alistGet s.watches x).map (fun r => (r.effId, r.flushPost))

def dirtyOf (s : Sys) (c : Nat) : Bool :=
  match alistGet s.comps c with
  | some cr => cr.dirty
  | none => true

/-- Wellformed states: every effect on the stack is registered, and the active
effect is the top of the stack (both hold for all reachable states). -/
def SysWF (s : Sys) : Prop :=
  (∀ e ∈ s.effectStack, (alistGet s.effects e).isSome = true) ∧
  s.activeEffect = s.effectStack.getLast?

/-- One step of the invalidation automaton for computed handle `c`: an
invalidation is legal only while the dirty flag is clear (and sets it); a
completed read clears the flag; all other events are irrelevant. -/
def autoStep (c : Nat) (d : Bool) (ev : Ev) : Option Bool :=
  if ev = Ev.invalidateEv c then (if d then none else some true)
  else if ev = Ev.compReadEv c then some false
  else some d

def autoRun (c : Nat) (d : Bool) : List Ev → Option Bool
  | [] => some d
  | ev :: rest =>
      match autoStep c d ev with
      | none => none
      | some d2 => autoRun c d2 rest

theorem autoRun_append (c : Nat) (d : Bool) (t1 t2 : List Ev) :
    autoRun c d (t1 ++ t2) = (autoRun c d t1).bind (fun d2 => autoRun c d2 t2) := by
  induction t1 generalizing d with
  | nil => simp [autoRun]
  | cons ev t1 ih =>
      simp only [List.cons_append, autoRun]
      cases autoStep c d ev <;> simp [ih]

def evQuiet (c : Nat) (ev : Ev) : Prop :=
  ev ≠ Ev.invalidateEv c ∧ ev ≠ Ev.compReadEv c

theorem autoStep_quiet {c : Nat} {ev : Ev} (h : evQuiet c ev) (d : Bool) :
    autoStep c d ev = some d := by
  simp [autoStep, h.1, h.2]

theorem autoRun_cons (c : Nat) (d : Bool) (ev : Ev) (tr : List Ev) :
    autoRun c d (ev :: tr) = match autoStep c d ev with
      | none => none
      | some d2 => autoRun c d2 tr := rfl

theorem autoRun_cons_quiet {c : Nat} {ev : Ev} (h : evQuiet c ev) (d : Bool)
    (tr : List Ev) : autoRun c d (ev :: tr) = autoRun c d tr := by
  rw [autoRun_cons, autoStep_quiet h]

theorem autoRun_cons_of_step {c : Nat} {d d2 : Bool} {ev : Ev}
    (h : autoStep c d ev = some d2) (tr : List Ev) :
    autoRun c d (ev :: tr) = autoRun c d2 tr := by
  rw [autoRun_cons, h]

theorem autoRun_quiet {c : Nat} {tr : List Ev} (h : ∀ ev ∈ tr, evQuiet c ev) (d : Bool) :
    autoRun c d tr = some d := by
  induction tr with
  | nil => simp [autoRun]
  | cons ev t ih =>
      rw [autoRun, autoStep_quiet (h ev (by simp))]
      exact ih (fun e he => h e (by simp [he]))

/-! ### Congruence and projection lemmas -/

theorem bucketSet_congr {s1 s2 : Sys} (h : s1.bucket = s2.bucket) (ck : CKey) (k : Key) :
    bucketSet s1 ck k = bucketSet s2 ck k := by simp [bucketSet, h]

theorem depsOf_congr {s1 s2 : Sys} (h : s1.effects = s2.effects) (x : EffId) :
    depsOf s1 x = depsOf s2 x := by simp [depsOf, h]

theorem effShape_congr {s1 s2 : Sys} (h : s1.effects = s2.effects) (x : EffId) :
    effShape s1 x = effShape s2 x := by simp [effShape, h]

theorem compEffOf_congr {s1 s2 : Sys} (h : s1.comps = s2.comps) (x : Nat) :
    compEffOf s1 x = compEffOf s2 x := by simp [compEffOf, h]

theorem watchShape_congr {s1 s2 : Sys} (h : s1.watches = s2.watches) (x : Nat) :
    watchShape s1 x = watchShape s2 x := by simp [watchShape, h]

theorem dirtyOf_congr {s1 s2 : Sys} (h : s1.comps = s2.comps) (x : Nat) :
    dirtyOf s1 x = dirtyOf s2 x := by simp [dirtyOf, h]

theorem setDeps_proj (s : Sys) (e : EffId) (d : List (CKey × Key)) :
    (setDeps s e d).store = s.store ∧ (setDeps s e d).bucket = s.bucket ∧
    (setDeps s e d).activeEffect = s.activeEffect ∧
    (setDeps s e d).effectStack = s.effectStack ∧
    (setDeps s e d).comps = s.comps ∧ (setDeps s e d).watches = s.watches ∧
    (setDeps s e d).jobQueue = s.jobQueue ∧ (setDeps s e d).isFlushing = s.isFlushing ∧
    (setDeps s e d).microtasks = s.microtasks ∧ (setDeps s e d).nextTrig = s.nextTrig ∧
    (setDeps s e d).proxies = s.proxies ∧ (setDeps s e d).seen = s.seen := by
  unfold setDeps; cases alistGet s.effects e <;> simp

theorem bucketRemove_proj (s : Sys) (ck : CKey) (k : Key) (e : EffId) :
    (bucketRemove s ck k e).store = s.store ∧
    (bucketRemove s ck k e).activeEffect = s.activeEffect ∧
    (bucketRemove s ck k e).effectStack = s.effectStack ∧
    (bucketRemove s ck k e).effects = s.effects ∧
    (bucketRemove s ck k e).comps = s.comps ∧
    (bucketRemove s ck k e).watches = s.watches ∧
    (bucketRemove s ck k e).jobQueue = s.jobQueue ∧
    (bucketRemove s ck k e).isFlushing = s.isFlushing ∧
    (bucketRemove s ck k e).microtasks = s.microtasks ∧
    (bucketRemove s ck k e).nextTrig = s.nextTrig ∧
    (bucketRemove s ck k e).proxies = s.proxies ∧
    (bucketRemove s ck k e).seen = s.seen := by
  unfold bucketRemove
  cases hb : alistGet s.bucket ck with
  | none => simp
  | some m => cases hk : alistGet m k <;> simp [hk]

theorem effShape_setDeps (s : Sys) (e : EffId) (d : List (CKey × Key)) (x : EffId) :
    effShape (setDeps s e d) x = effShape s x := by
  unfold setDeps
  cases h : alistGet s.effects e with
  | none => rfl
  | some r =>
      simp only [effShape, alistGet_alistSet]
      by_cases hx : e = x
      · subst hx; simp [h]
      · simp [hx]

theorem depsOf_setDeps_self {s : Sys} {e : EffId} {r : EffectRec}
    (h : alistGet s.effects e = some r) (d : List (CKey × Key)) :
    depsOf (setDeps s e d) e = d := by
  simp [setDeps, h, depsOf, alistGet_alistSet]

theorem depsOf_setDeps_ne {s : Sys} {e x : EffId} (hx : e ≠ x) (d : List (CKey × Key)) :
    depsOf (setDeps s e d) x = depsOf s x := by
  unfold setDeps
  cases h : alistGet s.effects e with
  | none => rfl
  | some r => simp [depsOf, alistGet_alistSet, hx]

/-! ### Trace measurement simp lemmas -/

theorem attrReads_nil (E : EffId) : attrReads E [] = [] := rfl

theorem attrReads_append (E : EffId) (t1 t2 : List Ev) :
    attrReads E (t1 ++ t2) = attrReads E t1 ++ attrReads E t2 := by
  simp [attrReads, List.filterMap_append]

theorem attrReads_cons_trackEv (E e : EffId) (ck : CKey) (k : Key) (tr : List Ev) :
    attrReads E (.trackEv e ck k :: tr) =
      if e = E then (ck, k) :: attrReads E tr else attrReads E tr := by
  by_cases h : e = E <;> simp [attrReads, List.filterMap_cons, h]

theorem attrReads_cons_other (E : EffId) (ev : Ev) (tr : List Ev)
    (h : ∀ e ck k, ev ≠ .trackEv e ck k) :
    attrReads E (ev :: tr) = attrReads E tr := by
  cases ev <;> simp [attrReads, List.filterMap_cons]
  case trackEv e ck k => exact absurd rfl (h e ck k)

end VueReact

namespace VueReact

/-! ### Dependency evolution of a single effect -/

/-- How one execution fragment changes effect `E`'s dependency edges: the
`deps` list grows by exactly the reads attributed to `E`, and `E`'s membership
in a dependency Set is gained exactly at those reads (assuming `E` itself is
not re-run, so no cleanup of `E` happens inside the fragment). -/
def ReadsEvolve (E : EffId) (s s' : Sys) (tr : List Ev) : Prop :=
  depsOf s' E = depsOf s E ++ attrReads E tr ∧
  ∀ ck k, E ∈ bucketSet s' ck k ↔ (E ∈ bucketSet s ck k ∨ (ck, k) ∈ attrReads E tr)

theorem ReadsEvolve.of_mem {E : EffId} {s s' : Sys} (tr : List Ev)
    (hd : depsOf s' E = depsOf s E)
    (hb : ∀ ck k, E ∈ bucketSet s' ck k ↔ E ∈ bucketSet s ck k)
    (ha : attrReads E tr = []) : ReadsEvolve E s s' tr := by
  constructor
  · simp [hd, ha]
  · intro ck k; simp [hb, ha]

theorem ReadsEvolve.refl (E : EffId) (s : Sys) (tr : List Ev)
    (ha : attrReads E tr = []) : ReadsEvolve E s s tr :=
  ReadsEvolve.of_mem tr rfl (fun _ _ => Iff.rfl) ha

theorem ReadsEvolve.trans {E : EffId} {s s1 s2 : Sys} {t1 t2 : List Ev}
    (h1 : ReadsEvolve E s s1 t1) (h2 : ReadsEvolve E s1 s2 t2) :
    ReadsEvolve E s s2 (t1 ++ t2) := by
  obtain ⟨d1, b1⟩ := h1
  obtain ⟨d2, b2⟩ := h2
  constructor
  · rw [attrReads_append, d2, d1, List.append_assoc]
  · intro ck k
    rw [attrReads_append]
    simp only [b2, b1, List.mem_append]
    tauto

/-! ### track and cleanup characterizations -/

theorem track_proj (s : Sys) (ck : CKey) (k : Key) :
    (track s ck k).1.activeEffect = s.activeEffect ∧
    (track s ck k).1.effectStack = s.effectStack ∧
    (track s ck k).1.comps = s.comps ∧
    (track s ck k).1.watches = s.watches ∧
    (track s ck k).1.jobQueue = s.jobQueue ∧
    (track s ck k).1.isFlushing = s.isFlushing ∧
    (track s ck k).1.microtasks = s.microtasks ∧
    (track s ck k).1.nextTrig = s.nextTrig ∧
    (track s ck k).1.store = s.store ∧
    (track s ck k).1.proxies = s.proxies ∧
    (track s ck k).1.seen = s.seen := by
  unfold track
  cases ha : s.activeEffect with
  | none => simp [ha]
  | some e =>
      obtain ⟨p1, p2, p3, p4, p5, p6, p7, p8, p9, p10, p11, p12⟩ :=
        setDeps_proj (bucketAdd s ck k e) e (depsOf (bucketAdd s ck k e) e ++ [(ck, k)])
      dsimp only
      exact ⟨p3.trans ha, p4, p5, p6, p7, p8, p9, p10, p1, p11, p12⟩

theorem track_effShape (s : Sys) (ck : CKey) (k : Key) (x : EffId) :
    effShape (track s ck k).1 x = effShape s x := by
  unfold track
  cases ha : s.activeEffect with
  | none => simp
  | some e => exact effShape_setDeps (bucketAdd s ck k e) e _ x

theorem track_quiet (s : Sys) (ck : CKey) (k : Key) :
    ∀ ev ∈ (track s ck k).2, (∀ e, ev ≠ .runStart e) ∧ (∀ tid e, ev ≠ .invokeEv tid e) ∧
      (∀ c, evQuiet c ev) := by
  unfold track
  cases s.activeEffect with
  | none => intro ev hev; simp at hev; subst hev; simp [evQuiet]
  | some e =>
      intro ev hev
      simp at hev
      rcases hev with h | h <;> subst h <;> simp [evQuiet]

theorem attrReads_trackPair (E e : EffId) (ck : CKey) (k : Key) :
    attrReads E [Ev.trackCall ck k, Ev.trackEv e ck k] =
      if e = E then [(ck, k)] else [] := by
  by_cases hE : e = E <;> simp [attrReads, List.filterMap_cons, hE]

theorem track_attr_of_ne {s : Sys} {E : EffId} (ck : CKey) (k : Key)
    (h : s.activeEffect ≠ some E) : attrReads E (track s ck k).2 = [] := by
  unfold track
  cases ha : s.activeEffect with
  | none => simp [attrReads]
  | some e =>
      have hne : e ≠ E := by rintro rfl; exact h ha
      simp [attrReads_trackPair, hne]

theorem track_reads {s : Sys} (ck : CKey) (k : Key) (E : EffId)
    (hwf : ∀ e, s.activeEffect = some e → (alistGet s.effects e).isSome = true) :
    ReadsEvolve E s (track s ck k).1 (track s ck k).2 := by
  unfold track
  cases ha : s.activeEffect with
  | none =>
      exact ReadsEvolve.refl E s _ (by simp [attrReads])
  | some e =>
      obtain ⟨r, hr⟩ := Option.isSome_iff_exists.mp (hwf e ha)
      have heff : (bucketAdd s ck k e).effects = s.effects := rfl
      have hrb : alistGet (bucketAdd s ck k e).effects e = some r := by rw [heff, hr]
      have hbs : ∀ ck' k', bucketSet (setDeps (bucketAdd s ck k e) e
          (depsOf (bucketAdd s ck k e) e ++ [(ck, k)])) ck' k' =
          bucketSet (bucketAdd s ck k e) ck' k' :=
        fun ck' k' => bucketSet_congr (setDeps_proj _ _ _).2.1 ck' k'
      by_cases hE : e = E
      · subst hE
        constructor
        · dsimp only
          rw [depsOf_setDeps_self hrb, depsOf_congr heff, attrReads_trackPair]
          simp
        · intro ck' k'
          dsimp only
          rw [hbs, bucketSet_bucketAdd, attrReads_trackPair, if_pos rfl]
          by_cases hck : ck = ck' ∧ k = k'
          · obtain ⟨h1, h2⟩ := hck; subst h1; subst h2
            simp [mem_addEffToSet]
          · rw [if_neg hck]
            simp only [List.mem_singleton, Prod.mk.injEq]
            constructor
            · intro h; exact Or.inl h
            · rintro (h | ⟨h1, h2⟩)
              · exact h
              · exact absurd ⟨h1.symm, h2.symm⟩ hck
      · have hattr : attrReads E [Ev.trackCall ck k, Ev.trackEv e ck k] = [] := by
          rw [attrReads_trackPair, if_neg hE]
        refine ReadsEvolve.of_mem _ ?_ ?_ hattr
        · dsimp only
          rw [depsOf_setDeps_ne hE, depsOf_congr heff]
        · intro ck' k'
          dsimp only
          rw [hbs, bucketSet_bucketAdd]
          by_cases hck : ck = ck' ∧ k = k'
          · obtain ⟨h1, h2⟩ := hck; subst h1; subst h2
            rw [if_pos ⟨rfl, rfl⟩, mem_addEffToSet]
            constructor
            · rintro (h | h)
              · exact h
              · exact absurd h.symm hE
            · intro h; exact Or.inl h
          · rw [if_neg hck]

end VueReact

namespace VueReact

/-! ### cleanup characterization -/

def remFold (l : List (CKey × Key)) (s : Sys) (e : EffId) : Sys :=
  l.foldl (fun acc p => bucketRemove acc p.1 p.2 e) s

theorem cleanup_eq (s : Sys) (e : EffId) :
    cleanup s e = setDeps (remFold (depsOf s e) s e) e [] := rfl

theorem mem_filter_ne {l : List EffId} {E e : EffId} :
    (E ∈ l.filter (fun f => f ≠ e)) ↔ (E ∈ l ∧ E ≠ e) := by
  simp [List.mem_filter]

theorem mem_bucketRemove {s : Sys} {ck : CKey} {k : Key} {e E : EffId}
    (ck' : CKey) (k' : Key) :
    (E ∈ bucketSet (bucketRemove s ck k e) ck' k') ↔
      (E ∈ bucketSet s ck' k' ∧ ¬(E = e ∧ ck = ck' ∧ k = k')) := by
  rw [bucketSet_bucketRemove]
  by_cases hck : ck = ck' ∧ k = k'
  · obtain ⟨h1, h2⟩ := hck; subst h1; subst h2
    rw [if_pos ⟨rfl, rfl⟩, mem_filter_ne]
    constructor
    · rintro ⟨h, hne⟩; exact ⟨h, fun hc => hne hc.1⟩
    · rintro ⟨h, hne⟩; exact ⟨h, fun hc => hne ⟨hc, rfl, rfl⟩⟩
  · rw [if_neg hck]
    constructor
    · intro h
      refine ⟨h, fun hc => hck ⟨hc.2.1, hc.2.2⟩⟩
    · exact fun h => h.1

theorem remFold_proj (l : List (CKey × Key)) (s : Sys) (e : EffId) :
    (remFold l s e).store = s.store ∧
    (remFold l s e).activeEffect = s.activeEffect ∧
    (remFold l s e).effectStack = s.effectStack ∧
    (remFold l s e).effects = s.effects ∧
    (remFold l s e).comps = s.comps ∧
    (remFold l s e).watches = s.watches ∧
    (remFold l s e).jobQueue = s.jobQueue ∧
    (remFold l s e).isFlushing = s.isFlushing ∧
    (remFold l s e).microtasks = s.microtasks ∧
    (remFold l s e).nextTrig = s.nextTrig ∧
    (remFold l s e).proxies = s.proxies ∧
    (remFold l s e).seen = s.seen := by
  induction l generalizing s with
  | nil => simp [remFold]
  | cons p rest ih =>
      have hstep := bucketRemove_proj s p.1 p.2 e
      have hrest := ih (bucketRemove s p.1 p.2 e)
      simp only [remFold, List.foldl_cons] at hrest ⊢
      exact ⟨hrest.1.trans hstep.1, hrest.2.1.trans hstep.2.1,
        hrest.2.2.1.trans hstep.2.2.1, hrest.2.2.2.1.trans hstep.2.2.2.1,
        hrest.2.2.2.2.1.trans hstep.2.2.2.2.1,
        hrest.2.2.2.2.2.1.trans hstep.2.2.2.2.2.1,
        hrest.2.2.2.2.2.2.1.trans hstep.2.2.2.2.2.2.1,
        hrest.2.2.2.2.2.2.2.1.trans hstep.2.2.2.2.2.2.2.1,
        hrest.2.2.2.2.2.2.2.2.1.trans hstep.2.2.2.2.2.2.2.2.1,
        hrest.2.2.2.2.2.2.2.2.2.1.trans hstep.2.2.2.2.2.2.2.2.2.1,
        hrest.2.2.2.2.2.2.2.2.2.2.1.trans hstep.2.2.2.2.2.2.2.2.2.2.1,
        hrest.2.2.2.2.2.2.2.2.2.2.2.trans hstep.2.2.2.2.2.2.2.2.2.2.2⟩

theorem remFold_mem_other {E e : EffId} (hne : E ≠ e) (l : List (CKey × Key))
    (s : Sys) (ck : CKey) (k : Key) :
    (E ∈ bucketSet (remFold l s e) ck k) ↔ E ∈ bucketSet s ck k := by
  induction l generalizing s with
  | nil => simp [remFold]
  | cons p rest ih =>
      simp only [remFold, List.foldl_cons] at ih ⊢
      rw [ih, mem_bucketRemove]
      constructor
      · exact fun h => h.1
      · intro h; exact ⟨h, fun hc => hne hc.1⟩

theorem remFold_mem_self (E : EffId) (l : List (CKey × Key)) (s : Sys)
    (ck : CKey) (k : Key) :
    (E ∈ bucketSet (remFold l s E) ck k) ↔
      (E ∈ bucketSet s ck k ∧ (ck, k) ∉ l) := by
  induction l generalizing s with
  | nil => simp [remFold]
  | cons p rest ih =>
      obtain ⟨a, b⟩ := p
      simp only [remFold, List.foldl_cons] at ih ⊢
      rw [ih, mem_bucketRemove]
      constructor
      · rintro ⟨⟨h1, h2⟩, h3⟩
        refine ⟨h1, ?_⟩
        intro hmem
        rcases List.mem_cons.mp hmem with hc | hc
        · obtain ⟨hc1, hc2⟩ := Prod.mk.injEq _ _ _ _ ▸ hc
          exact h2 ⟨rfl, hc1.symm, hc2.symm⟩
        · exact h3 hc
      · rintro ⟨h1, h2⟩
        refine ⟨⟨h1, ?_⟩, fun hc => h2 (List.mem_cons.mpr (Or.inr hc))⟩
        rintro ⟨-, rfl, rfl⟩
        exact h2 (List.mem_cons.mpr (Or.inl rfl))

theorem cleanup_proj (s : Sys) (e : EffId) :
    (cleanup s e).activeEffect = s.activeEffect ∧
    (cleanup s e).effectStack = s.effectStack ∧
    (cleanup s e).comps = s.comps ∧
    (cleanup s e).watches = s.watches ∧
    (cleanup s e).jobQueue = s.jobQueue ∧
    (cleanup s e).isFlushing = s.isFlushing ∧
    (cleanup s e).microtasks = s.microtasks ∧
    (cleanup s e).nextTrig = s.nextTrig ∧
    (cleanup s e).store = s.store ∧
    (cleanup s e).proxies = s.proxies ∧
    (cleanup s e).seen = s.seen := by
  rw [cleanup_eq]
  obtain ⟨q1, q2, q3, q4, q5, q6, q7, q8, q9, q10, q11, q12⟩ :=
    setDeps_proj (remFold (depsOf s e) s e) e []
  obtain ⟨r1, r2, r3, r4, r5, r6, r7, r8, r9, r10, r11, r12⟩ :=
    remFold_proj (depsOf s e) s e
  exact ⟨q3.trans r2, q4.trans r3, q5.trans r5, q6.trans r6, q7.trans r7,
    q8.trans r8, q9.trans r9, q10.trans r10, q1.trans r1, q11.trans r11,
    q12.trans r12⟩

theorem cleanup_effShape (s : Sys) (e : EffId) (x : EffId) :
    effShape (cleanup s e) x = effShape s x := by
  rw [cleanup_eq, effShape_setDeps]
  exact effShape_congr (remFold_proj (depsOf s e) s e).2.2.2.1 x

theorem cleanup_other (s : Sys) {e E : EffId} (hne : e ≠ E) :
    depsOf (cleanup s e) E = depsOf s E ∧
    ∀ ck k, (E ∈ bucketSet (cleanup s e) ck k ↔ E ∈ bucketSet s ck k) := by
  rw [cleanup_eq]
  constructor
  · rw [depsOf_setDeps_ne hne, depsOf_congr (remFold_proj (depsOf s e) s e).2.2.2.1]
  · intro ck k
    have hb : bucketSet (setDeps (remFold (depsOf s e) s e) e []) ck k =
        bucketSet (remFold (depsOf s e) s e) ck k :=
      bucketSet_congr (setDeps_proj _ _ _).2.1 ck k
    rw [hb]
    exact remFold_mem_other (fun h => hne h.symm) _ s ck k

theorem cleanup_self (s : Sys) (E : EffId)
    (hcomp : ∀ ck k, E ∈ bucketSet s ck k → (ck, k) ∈ depsOf s E) :
    depsOf (cleanup s E) E = [] ∧ ∀ ck k, E ∉ bucketSet (cleanup s E) ck k := by
  rw [cleanup_eq]
  constructor
  · cases hr : alistGet (remFold (depsOf s E) s E).effects E with
    | none =>
        have heq : (remFold (depsOf s E) s E).effects = s.effects :=
          (remFold_proj _ _ _).2.2.2.1
        have h1 : alistGet s.effects E = none := by rw [← heq]; exact hr
        have h2 : depsOf (remFold (depsOf s E) s E) E = [] := by
          rw [depsOf_congr heq E]
          unfold depsOf; rw [h1]
        have h3 : depsOf (setDeps (remFold (depsOf s E) s E) E []) E =
            depsOf (remFold (depsOf s E) s E) E := by
          unfold setDeps; rw [hr]
        rw [h3, h2]
    | some r => exact depsOf_setDeps_self hr []
  · intro ck k hmem
    rw [bucketSet_congr (setDeps_proj _ _ _).2.1 ck k] at hmem
    rw [remFold_mem_self] at hmem
    exact hmem.2 (hcomp ck k hmem.1)

end VueReact

namespace VueReact

/-! ### The master step invariant -/

theorem mem_of_getLastQ {α : Type} : ∀ {l : List α} {a : α}, l.getLast? = some a → a ∈ l
  | [], _, h => by simp [List.getLast?] at h
  | [x], a, h => by
      simp [List.getLast?] at h
      simp [h]
  | x :: y :: rest, a, h => by
      rw [List.getLast?_cons_cons] at h
      exact List.mem_cons_of_mem _ (mem_of_getLastQ h)

theorem SysWF.activeReg {s : Sys} (h : SysWF s) :
    ∀ e, s.activeEffect = some e → (alistGet s.effects e).isSome = true := by
  intro e he
  exact h.1 e (mem_of_getLastQ (h.2 ▸ he))

theorem effShape_isSome (s : Sys) (x : EffId) :
    (effShape s x).isSome = (alistGet s.effects x).isSome := by
  unfold effShape
  cases alistGet s.effects x <;> simp

theorem attrReads_eq_nil_of_no_track {tr : List Ev} (E : EffId)
    (h : ∀ ev ∈ tr, ∀ e ck k, ev ≠ Ev.trackEv e ck k) : attrReads E tr = [] := by
  unfold attrReads
  rw [List.filterMap_eq_nil_iff]
  intro ev hev
  cases hcase : ev <;> simp
  case trackEv e ck k => exact absurd hcase (by intro hc; exact h ev hev e ck k hc)

/-- Facts that hold of every interpreter execution from `s` to `o`: queue and
trigger-id monotonicity, invoke-id freshness, preservation of the registry
shapes, the dependency-evolution law for every effect not re-run inside, the
attribution law (an effect neither active nor on the stack that is not started
gets no reads attributed), stack discipline, and the dirty-flag automaton. -/
structure ComboP (low : Option Nat) (s : Sys) (o : Out) : Prop where
  wf2 : SysWF o.s
  jobPre : s.jobQueue <+: o.s.jobQueue
  trigMono : s.nextTrig ≤ o.s.nextTrig
  invokeBound : ∀ tid e, Ev.invokeEv tid e ∈ o.tr → (s.nextTrig ≤ tid ∨ low = some tid)
  effShapeEq : ∀ x, effShape o.s x = effShape s x
  compsEq : ∀ x, compEffOf o.s x = compEffOf s x
  watchesEq : ∀ x, watchShape o.s x = watchShape s x
  readsEvo : ∀ E, Ev.runStart E ∉ o.tr → ReadsEvolve E s o.s o.tr
  attrib : ∀ E, s.activeEffect ≠ some E → E ∉ s.effectStack → Ev.runStart E ∉ o.tr →
      attrReads E o.tr = [] ∧ o.s.activeEffect ≠ some E ∧ E ∉ o.s.effectStack
  stackOk : ∀ v, o.res = Except.ok v → o.s.effectStack = s.effectStack ∧
      o.s.activeEffect = s.activeEffect
  stackErr : ∀ er, o.res = Except.error er → s.effectStack <+: o.s.effectStack
  dirtyAuto : ∀ c, autoRun c (dirtyOf s c) o.tr = some (dirtyOf o.s c)

theorem ComboP.comp {low : Option Nat} {s s1 : Sys} {t1 : List Ev} {v1 : Val} {o2 : Out}
    (h1 : ComboP low s ⟨s1, t1, .ok v1⟩) (h2 : ComboP low s1 o2) :
    ComboP low s ⟨o2.s, t1 ++ o2.tr, o2.res⟩ := by
  obtain ⟨hs1, hact1⟩ := h1.stackOk v1 rfl
  refine ⟨h2.wf2, h1.jobPre.trans h2.jobPre, le_trans h1.trigMono h2.trigMono,
    ?_, ?_, ?_, ?_, ?_, ?_, ?_, ?_, ?_⟩
  · intro tid e hmem
    rcases List.mem_append.mp hmem with h | h
    · exact h1.invokeBound tid e h
    · rcases h2.invokeBound tid e h with hge | hl
      · exact Or.inl (le_trans h1.trigMono hge)
      · exact Or.inr hl
  · intro x; exact (h2.effShapeEq x).trans (h1.effShapeEq x)
  · intro x; exact (h2.compsEq x).trans (h1.compsEq x)
  · intro x; exact (h2.watchesEq x).trans (h1.watchesEq x)
  · intro E hno
    have hn1 : Ev.runStart E ∉ t1 := fun h => hno (List.mem_append.mpr (Or.inl h))
    have hn2 : Ev.runStart E ∉ o2.tr := fun h => hno (List.mem_append.mpr (Or.inr h))
    exact ReadsEvolve.trans (h1.readsEvo E hn1) (h2.readsEvo E hn2)
  · intro E hact hstk hno
    have hn1 : Ev.runStart E ∉ t1 := fun h => hno (List.mem_append.mpr (Or.inl h))
    have hn2 : Ev.runStart E ∉ o2.tr := fun h => hno (List.mem_append.mpr (Or.inr h))
    obtain ⟨a1, a2, a3⟩ := h1.attrib E hact hstk hn1
    obtain ⟨b1, b2, b3⟩ := h2.attrib E a2 a3 hn2
    exact ⟨by rw [attrReads_append, a1, b1, List.append_nil], b2, b3⟩
  · intro v hv
    obtain ⟨c1, c2⟩ := h2.stackOk v hv
    exact ⟨c1.trans hs1, c2.trans hact1⟩
  · intro er her
    have := h2.stackErr er her
    rw [hs1] at this
    exact this
  · intro c
    rw [autoRun_append, h1.dirtyAuto c]
    exact h2.dirtyAuto c

/-- A benign step: the state changes in none of the invariant-relevant ways and
the trace is quiet. -/
theorem ComboP.benign {low : Option Nat} {s s' : Sys} {tr : List Ev} {res : Except Err Val}
    (hwf : SysWF s)
    (hb : ∀ ck k, bucketSet s' ck k = bucketSet s ck k)
    (hd : ∀ x, depsOf s' x = depsOf s x)
    (heff : ∀ x, effShape s' x = effShape s x)
    (hcomp : ∀ x, compEffOf s' x = compEffOf s x)
    (hw : ∀ x, watchShape s' x = watchShape s x)
    (hdirty : ∀ c, dirtyOf s' c = dirtyOf s c)
    (hact : s'.activeEffect = s.activeEffect)
    (hstk : s'.effectStack = s.effectStack)
    (hjob : s.jobQueue <+: s'.jobQueue)
    (htrig : s.nextTrig ≤ s'.nextTrig)
    (hq : ∀ ev ∈ tr, (∀ e, ev ≠ .runStart e) ∧ (∀ tid e, ev ≠ .invokeEv tid e) ∧
          (∀ c, evQuiet c ev) ∧ (∀ e ck k, ev ≠ .trackEv e ck k)) :
    ComboP low s ⟨s', tr, res⟩ := by
  have hattr : ∀ E, attrReads E tr = [] :=
    fun E => attrReads_eq_nil_of_no_track E (fun ev hev => (hq ev hev).2.2.2)
  refine ⟨?_, hjob, htrig, ?_, heff, hcomp, hw, ?_, ?_, ?_, ?_, ?_⟩
  · constructor
    · intro e he
      rw [hstk] at he
      have := hwf.1 e he
      rw [← effShape_isSome, heff, effShape_isSome]
      exact this
    · rw [hact, hstk]; exact hwf.2
  · intro tid e hmem
    exact absurd rfl ((hq _ hmem).2.1 tid e)
  · intro E _
    exact ReadsEvolve.of_mem tr (hd E) (fun ck k => by rw [hb]) (hattr E)
  · intro E hactE hstkE _
    exact ⟨hattr E, by rw [hact]; exact hactE, by rw [hstk]; exact hstkE⟩
  · intro v _
    exact ⟨hstk, hact⟩
  · intro er _
    rw [hstk]
  · intro c
    rw [autoRun_quiet (fun ev hev => (hq ev hev).2.2.1 c), hdirty c]

end VueReact

namespace VueReact

/-- A step that performs exactly one `track` (plus quiet extra events). -/
theorem ComboP.trackStep {low : Option Nat} {s : Sys} (ck : CKey) (k : Key) (extra : List Ev)
    (res : Except Err Val) (hwf : SysWF s)
    (hq : ∀ ev ∈ extra, (∀ e, ev ≠ .runStart e) ∧ (∀ tid e, ev ≠ .invokeEv tid e) ∧
          (∀ c, evQuiet c ev) ∧ (∀ e ck2 k2, ev ≠ .trackEv e ck2 k2)) :
    ComboP low s ⟨(track s ck k).1, (track s ck k).2 ++ extra, res⟩ := by
  obtain ⟨p1, p2, p3, p4, p5, p6, p7, p8, p9, p10, p11⟩ := track_proj s ck k
  have hq2 := track_quiet s ck k
  refine ⟨?_, by rw [p5], by rw [p8], ?_, fun x => track_effShape s ck k x,
    fun x => compEffOf_congr p3 x, fun x => watchShape_congr p4 x, ?_, ?_, ?_, ?_, ?_⟩
  · constructor
    · intro e he
      rw [p2] at he
      have := hwf.1 e he
      rw [← effShape_isSome, track_effShape, effShape_isSome]
      exact this
    · rw [p1, p2]; exact hwf.2
  · intro tid e hmem
    rcases List.mem_append.mp hmem with h | h
    · exact absurd rfl ((hq2 _ h).2.1 tid e)
    · exact absurd rfl ((hq _ h).2.1 tid e)
  · intro E _
    have h1 : ReadsEvolve E s (track s ck k).1 (track s ck k).2 :=
      track_reads ck k E hwf.activeReg
    have h2 : attrReads E extra = [] :=
      attrReads_eq_nil_of_no_track E (fun ev hev => (hq ev hev).2.2.2)
    obtain ⟨d1, b1⟩ := h1
    refine ⟨?_, ?_⟩
    · rw [attrReads_append, h2, List.append_nil]; exact d1
    · intro ck2 k2
      rw [attrReads_append, h2, List.append_nil]; exact b1 ck2 k2
  · intro E hact hstk _
    refine ⟨?_, by rw [p1]; exact hact, by rw [p2]; exact hstk⟩
    rw [attrReads_append, track_attr_of_ne ck k hact,
      attrReads_eq_nil_of_no_track E (fun ev hev => (hq ev hev).2.2.2)]
    rfl
  · intro v _
    exact ⟨p2, p1⟩
  · intro er _
    rw [p2]
  · intro c
    rw [autoRun_append, autoRun_quiet (fun ev hev => (hq2 ev hev).2.2 c)]
    rw [Option.some_bind]
    rw [autoRun_quiet (fun ev hev => (hq ev hev).2.2.1 c), dirtyOf_congr p3]

end VueReact

namespace VueReact

theorem ComboP.retagOk {low : Option Nat} {s s1 : Sys} {tr : List Ev} {v w : Val}
    (h : ComboP low s ⟨s1, tr, .ok v⟩) : ComboP low s ⟨s1, tr, .ok w⟩ := by
  refine ⟨h.wf2, h.jobPre, h.trigMono, h.invokeBound, h.effShapeEq, h.compsEq,
    h.watchesEq, h.readsEvo, h.attrib, ?_, ?_, h.dirtyAuto⟩
  · intro v2 _
    exact h.stackOk v rfl
  · intro er her
    simp at her

theorem ComboP.retagOkToErr {low : Option Nat} {s s1 : Sys} {tr : List Ev} {v : Val}
    {er : Err} (h : ComboP low s ⟨s1, tr, .ok v⟩) : ComboP low s ⟨s1, tr, .error er⟩ := by
  refine ⟨h.wf2, h.jobPre, h.trigMono, h.invokeBound, h.effShapeEq, h.compsEq,
    h.watchesEq, h.readsEvo, h.attrib, ?_, ?_, h.dirtyAuto⟩
  · intro v2 hv; simp at hv
  · intro er2 _
    rw [(h.stackOk v rfl).1]

def benignNilTr : ∀ ev ∈ ([] : List Ev), (∀ e, ev ≠ Ev.runStart e) ∧
    (∀ tid e, ev ≠ Ev.invokeEv tid e) ∧ (∀ c, evQuiet c ev) ∧
    (∀ e ck k, ev ≠ Ev.trackEv e ck k) := by
  intro ev hev; simp at hev

theorem ComboP.idStep {low : Option Nat} {s : Sys} (res : Except Err Val)
    (hwf : SysWF s) : ComboP low s ⟨s, [], res⟩ :=
  ComboP.benign hwf (fun _ _ => rfl) (fun _ => rfl) (fun _ => rfl)
    (fun _ => rfl) (fun _ => rfl) (fun _ => rfl) rfl rfl (List.prefix_refl _)
    (le_refl _) benignNilTr

theorem ComboP.weaken {s : Sys} {o : Out} (low : Option Nat)
    (h : ComboP none s o) : ComboP low s o := by
  refine ⟨h.wf2, h.jobPre, h.trigMono, ?_, h.effShapeEq, h.compsEq, h.watchesEq,
    h.readsEvo, h.attrib, h.stackOk, h.stackErr, h.dirtyAuto⟩
  intro tid e hmem
  rcases h.invokeBound tid e hmem with hge | hl
  · exact Or.inl hge
  · exact absurd hl (by simp)

/-- Prepend a single event that does not disturb any invariant (an invoke event
is allowed when its trigger id matches `low`). -/
theorem ComboP.prependEv {low : Option Nat} {s : Sys} {o : Out} (ev : Ev)
    (hq : ∀ c, evQuiet c ev)
    (htk : ∀ e2 ck k, ev ≠ Ev.trackEv e2 ck k)
    (hin : ∀ tid2 e2, ev = Ev.invokeEv tid2 e2 → low = some tid2)
    (h : ComboP low s o) : ComboP low s ⟨o.s, ev :: o.tr, o.res⟩ := by
  refine ⟨h.wf2, h.jobPre, h.trigMono, ?_, h.effShapeEq, h.compsEq, h.watchesEq,
    ?_, ?_, h.stackOk, h.stackErr, ?_⟩
  · intro tid2 e2 hmem
    rcases List.mem_cons.mp hmem with hc | hc
    · exact Or.inr (hin tid2 e2 hc.symm)
    · exact h.invokeBound tid2 e2 hc
  · intro E hno
    have h2 := h.readsEvo E (fun hm => hno (List.mem_cons_of_mem _ hm))
    have ha : attrReads E (ev :: o.tr) = attrReads E o.tr :=
      attrReads_cons_other E ev o.tr htk
    exact ⟨by rw [ha]; exact h2.1, fun ck k => by rw [ha]; exact h2.2 ck k⟩
  · intro E hact hstk hno
    obtain ⟨a1, a2, a3⟩ := h.attrib E hact hstk
      (fun hm => hno (List.mem_cons_of_mem _ hm))
    exact ⟨by rw [attrReads_cons_other E ev o.tr htk]; exact a1, a2, a3⟩
  · intro c
    rw [autoRun, autoStep_quiet (hq c)]
    exact h.dirtyAuto c

/-- Replace the final state by one equal in every invariant-relevant field. -/
theorem ComboP.retarget {low : Option Nat} {s s1 s2 : Sys} {tr : List Ev}
    {res : Except Err Val}
    (hb : ∀ ck k, bucketSet s2 ck k = bucketSet s1 ck k)
    (hd : ∀ x, depsOf s2 x = depsOf s1 x)
    (heff : ∀ x, effShape s2 x = effShape s1 x)
    (hcomp : ∀ x, compEffOf s2 x = compEffOf s1 x)
    (hw : ∀ x, watchShape s2 x = watchShape s1 x)
    (hdirty : ∀ c, dirtyOf s2 c = dirtyOf s1 c)
    (hact : s2.activeEffect = s1.activeEffect)
    (hstk : s2.effectStack = s1.effectStack)
    (hjob : s2.jobQueue = s1.jobQueue)
    (htrig : s2.nextTrig = s1.nextTrig)
    (h : ComboP low s ⟨s1, tr, res⟩) : ComboP low s ⟨s2, tr, res⟩ := by
  refine ⟨?_, ?_, ?_, h.invokeBound, ?_, ?_, ?_, ?_, ?_, ?_, ?_, ?_⟩
  · constructor
    · intro e he
      rw [hstk] at he
      have := h.wf2.1 e he
      rw [← effShape_isSome, heff, effShape_isSome]
      exact this
    · rw [hact, hstk]; exact h.wf2.2
  · rw [hjob]; exact h.jobPre
  · rw [htrig]; exact h.trigMono
  · intro x; rw [heff]; exact h.effShapeEq x
  · intro x; rw [hcomp]; exact h.compsEq x
  · intro x; rw [hw]; exact h.watchesEq x
  · intro E hno
    obtain ⟨d1, b1⟩ := h.readsEvo E hno
    exact ⟨by rw [hd]; exact d1, fun ck k => by rw [hb]; exact b1 ck k⟩
  · intro E hact2 hstk2 hno
    obtain ⟨a1, a2, a3⟩ := h.attrib E hact2 hstk2 hno
    exact ⟨a1, by rw [hact]; exact a2, by rw [hstk]; exact a3⟩
  · intro v hv
    obtain ⟨c1, c2⟩ := h.stackOk v hv
    exact ⟨hstk.trans c1, hact.trans c2⟩
  · intro er her
    rw [hstk]; exact h.stackErr er her
  · intro c
    rw [hdirty]; exact h.dirtyAuto c

/-- Wrap a `trigList` execution into its surrounding `trigger` call. -/
theorem ComboP.trigWrap {s : Sys} {o : Out} (ck : CKey) (k : Key)
    (hwf : SysWF s)
    (h : ComboP (some s.nextTrig) { s with nextTrig := s.nextTrig + 1 } o) :
    ComboP none s ⟨o.s, Ev.trigEv ck k :: o.tr, o.res⟩ := by
  have hstep : ComboP (some s.nextTrig) s
      ⟨{ s with nextTrig := s.nextTrig + 1 }, [Ev.trigEv ck k], .ok .undef⟩ :=
    ComboP.benign hwf (fun _ _ => rfl) (fun _ => rfl) (fun _ => rfl) (fun _ => rfl)
      (fun _ => rfl) (fun _ => rfl) rfl rfl (List.prefix_refl _) (Nat.le_succ _)
      (by intro ev hev; simp at hev; subst hev; simp [evQuiet])
  have hc := hstep.comp h
  refine ⟨hc.wf2, hc.jobPre, hc.trigMono, ?_, hc.effShapeEq, hc.compsEq, hc.watchesEq,
    hc.readsEvo, hc.attrib, hc.stackOk, hc.stackErr, hc.dirtyAuto⟩
  intro tid e hmem
  rcases hc.invokeBound tid e hmem with hge | hl
  · exact Or.inl hge
  · exact Or.inl (le_of_eq (Option.some.inj hl))

theorem prefix_addEffToSet (l : List EffId) (e : EffId) : l <+: addEffToSet l e := by
  unfold addEffToSet
  by_cases h : e ∈ l
  · simp [h]
  · simp [h]

theorem compsSet {s : Sys} {c : Nat} {cr : CompRec}
    (hc : alistGet s.comps c = some cr) (r2 : CompRec) (hr : r2.effId = cr.effId) :
    dirtyOf { s with comps := alistSet s.comps c r2 } c = r2.dirty ∧
    (∀ c2, c2 ≠ c → dirtyOf { s with comps := alistSet s.comps c r2 } c2 = dirtyOf s c2) ∧
    (∀ x, compEffOf { s with comps := alistSet s.comps c r2 } x = compEffOf s x) := by
  refine ⟨by simp [dirtyOf, alistGet_alistSet], ?_, ?_⟩
  · intro c2 hne
    have : ¬(c = c2) := fun h => hne h.symm
    simp [dirtyOf, alistGet_alistSet, this]
  · intro x
    by_cases hx : c = x
    · subst hx
      simp [compEffOf, alistGet_alistSet, hc, hr]
    · simp [compEffOf, alistGet_alistSet, hx]

theorem watchSetOld {s : Sys} {w : Nat} {wr : WatchRec}
    (hw : alistGet s.watches w = some wr) (v : Val) :
    ∀ x, watchShape { s with watches := alistSet s.watches w { wr with oldValue := v } } x =
      watchShape s x := by
  intro x
  by_cases hx : w = x
  · subst hx
    simp [watchShape, alistGet_alistSet, hw]
  · simp [watchShape, alistGet_alistSet, hx]

end VueReact

namespace VueReact

/-- Append a single event compatible with the current automaton state. -/
theorem ComboP.appendEv {low : Option Nat} {s s1 : Sys} {tr : List Ev}
    {res : Except Err Val} (ev : Ev)
    (htk : ∀ e2 ck k, ev ≠ Ev.trackEv e2 ck k)
    (hin : ∀ tid2 e2, ev = Ev.invokeEv tid2 e2 → low = some tid2)
    (hau : ∀ c2, autoStep c2 (dirtyOf s1 c2) ev = some (dirtyOf s1 c2))
    (h : ComboP low s ⟨s1, tr, res⟩) : ComboP low s ⟨s1, tr ++ [ev], res⟩ := by
  have ha : ∀ E, attrReads E (tr ++ [ev]) = attrReads E tr := by
    intro E
    rw [attrReads_append, attrReads_cons_other E ev [] htk, attrReads_nil,
      List.append_nil]
  refine ⟨h.wf2, h.jobPre, h.trigMono, ?_, h.effShapeEq, h.compsEq, h.watchesEq,
    ?_, ?_, h.stackOk, h.stackErr, ?_⟩
  · intro tid2 e2 hmem
    rcases List.mem_append.mp hmem with hm | hm
    · exact h.invokeBound tid2 e2 hm
    · simp at hm
      exact Or.inr (hin tid2 e2 hm.symm)
  · intro E hno
    obtain ⟨d1, b1⟩ := h.readsEvo E (fun hm => hno (List.mem_append.mpr (Or.inl hm)))
    exact ⟨by rw [ha]; exact d1, fun ck k => by rw [ha]; exact b1 ck k⟩
  · intro E hact hstk hno
    obtain ⟨a1, a2, a3⟩ := h.attrib E hact hstk
      (fun hm => hno (List.mem_append.mpr (Or.inl hm)))
    exact ⟨by rw [ha]; exact a1, a2, a3⟩
  · intro c2
    rw [autoRun_append, h.dirtyAuto c2, Option.some_bind, autoRun_cons_of_step (hau c2)]
    rfl

/-- The effect runner when the wrapped function throws: the error propagates
and neither the stack pop nor the active-effect restore happens. -/
theorem runEffErr {s s3 s4 : Sys} {e : EffId} {t4 : List Ev} {er : Err}
    (_hwf : SysWF s)
    (hs3act : s3.activeEffect = some e)
    (hs3stk : s3.effectStack = s.effectStack ++ [e])
    (hs3bucket : ∀ ck k, bucketSet s3 ck k = bucketSet (cleanup s e) ck k)
    (hs3deps : ∀ x, depsOf s3 x = depsOf (cleanup s e) x)
    (hs3eff : ∀ x, effShape s3 x = effShape s x)
    (hs3comps : s3.comps = s.comps)
    (hs3job : s3.jobQueue = s.jobQueue)
    (hs3trig : s3.nextTrig = s.nextTrig)
    (hs3watches : s3.watches = s.watches)
    (h1 : ComboP none s3 ⟨s4, t4, .error er⟩) :
    ComboP none s ⟨s4, Ev.runStart e :: t4, .error er⟩ := by
  refine ⟨h1.wf2, ?_, ?_, ?_, ?_, ?_, ?_, ?_, ?_, ?_, ?_, ?_⟩
  · rw [← hs3job]; exact h1.jobPre
  · rw [← hs3trig]; exact h1.trigMono
  · intro tid e2 hmem
    rcases List.mem_cons.mp hmem with hm | hm
    · exact Ev.noConfusion hm
    · rcases h1.invokeBound tid e2 hm with hge | hl
      · exact Or.inl (hs3trig ▸ hge)
      · exact Option.noConfusion hl
  · intro x; rw [h1.effShapeEq x, hs3eff x]
  · intro x; rw [h1.compsEq x, compEffOf_congr hs3comps x]
  · intro x; rw [h1.watchesEq x, watchShape_congr hs3watches x]
  · intro E hno
    have hne : e ≠ E := by
      rintro rfl; exact hno (List.mem_cons_self _ _)
    have hno4 : Ev.runStart E ∉ t4 := fun hm => hno (List.mem_cons_of_mem _ hm)
    obtain ⟨d1, b1⟩ := h1.readsEvo E hno4
    obtain ⟨co1, co2⟩ := cleanup_other s hne
    have ha : attrReads E (Ev.runStart e :: t4) = attrReads E t4 :=
      attrReads_cons_other E _ t4 (by simp)
    constructor
    · rw [ha, d1, hs3deps E, co1]
    · intro ck k
      rw [ha, b1 ck k, hs3bucket ck k, co2 ck k]
  · intro E hact hstk hno
    have hne : e ≠ E := by
      rintro rfl; exact hno (List.mem_cons_self _ _)
    have hno4 : Ev.runStart E ∉ t4 := fun hm => hno (List.mem_cons_of_mem _ hm)
    have hact3 : s3.activeEffect ≠ some E := by
      rw [hs3act]; intro hcx; exact hne (Option.some.inj hcx)
    have hstk3 : E ∉ s3.effectStack := by
      rw [hs3stk]
      intro hm
      rcases List.mem_append.mp hm with hm2 | hm2
      · exact hstk hm2
      · simp at hm2; exact hne hm2.symm
    obtain ⟨a1, a2, a3⟩ := h1.attrib E hact3 hstk3 hno4
    exact ⟨by rw [attrReads_cons_other E _ t4 (by simp)]; exact a1, a2, a3⟩
  · intro v hv; simp at hv
  · intro er2 _
    have h2 := h1.stackErr er rfl
    rw [hs3stk] at h2
    exact List.IsPrefix.trans ⟨[e], rfl⟩ h2
  · intro c
    rw [autoRun_cons_quiet (by simp [evQuiet])]
    have := h1.dirtyAuto c
    rw [dirtyOf_congr hs3comps c] at this
    exact this

/-- The effect runner when the wrapped function returns: the stack is popped
and the previous active effect is restored. -/
theorem runEffOk {s s3 s4 : Sys} {e : EffId} {t4 : List Ev} {v : Val}
    (hwf : SysWF s)
    (hs3act : s3.activeEffect = some e)
    (hs3stk : s3.effectStack = s.effectStack ++ [e])
    (hs3bucket : ∀ ck k, bucketSet s3 ck k = bucketSet (cleanup s e) ck k)
    (hs3deps : ∀ x, depsOf s3 x = depsOf (cleanup s e) x)
    (hs3eff : ∀ x, effShape s3 x = effShape s x)
    (hs3comps : s3.comps = s.comps)
    (hs3job : s3.jobQueue = s.jobQueue)
    (hs3trig : s3.nextTrig = s.nextTrig)
    (hs3watches : s3.watches = s.watches)
    (h1 : ComboP none s3 ⟨s4, t4, .ok v⟩) :
    ComboP none s
      ⟨{ s4 with
         effectStack := s4.effectStack.dropLast,
         activeEffect := s4.effectStack.dropLast.getLast? },
       Ev.runStart e :: (t4 ++ [Ev.runEnd e]), .ok v⟩ := by
  obtain ⟨hst4, hac4⟩ := h1.stackOk v rfl
  have hstk4 : s4.effectStack = s.effectStack ++ [e] := hst4.trans hs3stk
  have hdrop : s4.effectStack.dropLast = s.effectStack := by
    rw [hstk4]; exact List.dropLast_concat
  have ha : ∀ E, attrReads E (Ev.runStart e :: (t4 ++ [Ev.runEnd e])) =
      attrReads E t4 := by
    intro E
    rw [attrReads_cons_other E _ _ (by simp), attrReads_append,
      attrReads_cons_other E _ [] (by simp), attrReads_nil, List.append_nil]
  have hnomem : ∀ E, Ev.runStart E ∉ Ev.runStart e :: (t4 ++ [Ev.runEnd e]) →
      (e ≠ E ∧ Ev.runStart E ∉ t4) := by
    intro E hno
    constructor
    · rintro rfl; exact hno (List.mem_cons_self _ _)
    · intro hm
      exact hno (List.mem_cons_of_mem _ (List.mem_append.mpr (Or.inl hm)))
  refine ⟨?_, ?_, ?_, ?_, ?_, ?_, ?_, ?_, ?_, ?_, ?_, ?_⟩
  · constructor
    · intro e2 he2
      have he3 : e2 ∈ s.effectStack := hdrop ▸ he2
      have h5 := hwf.1 e2 he3
      have h6 : (alistGet s4.effects e2).isSome = (alistGet s.effects e2).isSome := by
        rw [← effShape_isSome s4 e2,
          show effShape s4 e2 = effShape s e2 from (h1.effShapeEq e2).trans (hs3eff e2),
          effShape_isSome]
      exact (show (alistGet s4.effects e2).isSome = true from h6.trans h5)
    · rfl
  · show s.jobQueue <+: s4.jobQueue
    rw [← hs3job]
    exact h1.jobPre
  · show s.nextTrig ≤ s4.nextTrig
    rw [← hs3trig]
    exact h1.trigMono
  · intro tid e2 hmem
    rcases List.mem_cons.mp hmem with hm | hm
    · exact Ev.noConfusion hm
    · rcases List.mem_append.mp hm with hm2 | hm2
      · rcases h1.invokeBound tid e2 hm2 with hge | hl
        · exact Or.inl (hs3trig ▸ hge)
        · exact Option.noConfusion hl
      · simp at hm2
  · intro x
    exact (show effShape s4 x = effShape s x from (h1.effShapeEq x).trans (hs3eff x))
  · intro x
    exact (show compEffOf s4 x = compEffOf s x from
      (h1.compsEq x).trans (compEffOf_congr hs3comps x))
  · intro x
    exact (show watchShape s4 x = watchShape s x from
      (h1.watchesEq x).trans (watchShape_congr hs3watches x))
  · intro E hno
    obtain ⟨hne, hno4⟩ := hnomem E hno
    obtain ⟨d1, b1⟩ := h1.readsEvo E hno4
    have d1a : depsOf s4 E = depsOf s3 E ++ attrReads E t4 := d1
    have b1a : ∀ ck k, (E ∈ bucketSet s4 ck k ↔
        (E ∈ bucketSet s3 ck k ∨ (ck, k) ∈ attrReads E t4)) := b1
    obtain ⟨co1, co2⟩ := cleanup_other s hne
    constructor
    · show depsOf s4 E = depsOf s E ++
        attrReads E (Ev.runStart e :: (t4 ++ [Ev.runEnd e]))
      rw [ha E, d1a, hs3deps E, co1]
    · intro ck k
      show E ∈ bucketSet s4 ck k ↔ (E ∈ bucketSet s ck k ∨
        (ck, k) ∈ attrReads E (Ev.runStart e :: (t4 ++ [Ev.runEnd e])))
      rw [ha E, b1a ck k, hs3bucket ck k, co2 ck k]
  · intro E hact hstk hno
    obtain ⟨hne, hno4⟩ := hnomem E hno
    have hact3 : s3.activeEffect ≠ some E := by
      rw [hs3act]; intro hcx; exact hne (Option.some.inj hcx)
    have hstk3 : E ∉ s3.effectStack := by
      rw [hs3stk]
      intro hm
      rcases List.mem_append.mp hm with hm2 | hm2
      · exact hstk hm2
      · simp at hm2; exact hne hm2.symm
    have a1 : attrReads E t4 = [] := (h1.attrib E hact3 hstk3 hno4).1
    refine ⟨?_, ?_, ?_⟩
    · show attrReads E (Ev.runStart e :: (t4 ++ [Ev.runEnd e])) = []
      rw [ha E, a1]
    · show s4.effectStack.dropLast.getLast? ≠ some E
      rw [hdrop, ← hwf.2]
      exact hact
    · show E ∉ s4.effectStack.dropLast
      rw [hdrop]
      exact hstk
  · intro v2 _
    constructor
    · show s4.effectStack.dropLast = s.effectStack
      exact hdrop
    · show s4.effectStack.dropLast.getLast? = s.activeEffect
      rw [hdrop, ← hwf.2]
  · intro er her; simp at her
  · intro c
    show autoRun c (dirtyOf s c) (Ev.runStart e :: (t4 ++ [Ev.runEnd e])) =
      some (dirtyOf s4 c)
    rw [autoRun_cons_quiet (by simp [evQuiet]), autoRun_append]
    have h2a : autoRun c (dirtyOf s c) t4 = some (dirtyOf s4 c) := by
      have h2 := h1.dirtyAuto c
      rw [dirtyOf_congr hs3comps c] at h2
      exact h2
    rw [h2a, Option.some_bind, autoRun_cons_quiet (by simp [evQuiet])]
    rfl

/-- The state-and-track step performed by a computed read that recomputed:
cache the value, clear the dirty flag, then `track` the synthetic pair. -/
theorem compReadStep {s2 : Sys} {c : Nat} {cr cr2 : CompRec} {v : Val}
    (hc2 : alistGet s2.comps c = some cr2) (heff : cr.effId = cr2.effId)
    (hwf2 : SysWF s2) (res : Except Err Val) :
    ComboP none s2
      ⟨(track { s2 with comps := alistSet s2.comps c { cr with cache := v, dirty := false } }
          (.comp c) "value").1,
       (track { s2 with comps := alistSet s2.comps c { cr with cache := v, dirty := false } }
          (.comp c) "value").2 ++ [Ev.compReadEv c], res⟩ := by
  obtain ⟨cs1, cs2, cs3⟩ := compsSet hc2 { cr with cache := v, dirty := false } heff
  have hwf1 : SysWF { s2 with comps := alistSet s2.comps c { cr with cache := v, dirty := false } } := hwf2
  have h0 : ComboP none { s2 with comps := alistSet s2.comps c { cr with cache := v, dirty := false } }
      ⟨(track { s2 with comps := alistSet s2.comps c { cr with cache := v, dirty := false } }
          (.comp c) "value").1,
       (track { s2 with comps := alistSet s2.comps c { cr with cache := v, dirty := false } }
          (.comp c) "value").2 ++ [], res⟩ :=
    ComboP.trackStep (.comp c) "value" [] res hwf1 benignNilTr
  rw [List.append_nil] at h0
  have htc : (track { s2 with comps := alistSet s2.comps c { cr with cache := v, dirty := false } }
      (.comp c) "value").1.comps =
      ({ s2 with comps := alistSet s2.comps c { cr with cache := v, dirty := false } } : Sys).comps :=
    (track_proj _ _ _).2.2.1
  have hdx : dirtyOf (track { s2 with comps := alistSet s2.comps c { cr with cache := v, dirty := false } }
      (.comp c) "value").1 c = false := by
    rw [dirtyOf_congr htc]
    exact cs1
  have hau : ∀ c2, autoStep c2
      (dirtyOf (track { s2 with comps := alistSet s2.comps c { cr with cache := v, dirty := false } }
        (.comp c) "value").1 c2) (Ev.compReadEv c) =
      some (dirtyOf (track { s2 with comps := alistSet s2.comps c { cr with cache := v, dirty := false } }
        (.comp c) "value").1 c2) := by
    intro c2
    by_cases hcc : c2 = c
    · subst hcc
      rw [hdx]
      simp [autoStep]
    · have hne2 : ¬(Ev.compReadEv c = Ev.compReadEv c2) := by
        intro h; injection h with h2; exact hcc h2.symm
      simp [autoStep, hne2]
  have happ := ComboP.appendEv (Ev.compReadEv c) (by simp)
    (by intro a b hcx; cases hcx) hau h0
  refine ⟨happ.wf2, ?_, ?_, happ.invokeBound, happ.effShapeEq, ?_, happ.watchesEq,
    ?_, ?_, happ.stackOk, happ.stackErr, ?_⟩
  · exact happ.jobPre
  · exact happ.trigMono
  · intro x
    exact (happ.compsEq x).trans (cs3 x)
  · intro E hno
    exact happ.readsEvo E hno
  · intro E hact hstk hno
    exact happ.attrib E hact hstk hno
  · intro c2
    by_cases hcc : c2 = c
    · subst hcc
      rw [autoRun_append]
      rw [autoRun_quiet (fun ev hev => ((track_quiet _ _ _) ev hev).2.2 c2)]
      rw [Option.some_bind]
      rw [autoRun_cons_of_step
        (show autoStep c2 (dirtyOf s2 c2) (Ev.compReadEv c2) = some false by
          simp [autoStep])]
      rw [show autoRun c2 false [] = some false from rfl, hdx]
    · have h2 := happ.dirtyAuto c2
      rw [cs2 c2 hcc] at h2
      exact h2

end VueReact

namespace VueReact

/-- Pushing a registered effect onto the stack after its cleanup yields a
wellformed state. -/
theorem SysWF.push {s : Sys} (hwf : SysWF s) (e : EffId)
    (hr : (alistGet s.effects e).isSome = true) : SysWF (pushEff s e) := by
  obtain ⟨cp1, cp2, _⟩ := cleanup_proj s e
  constructor
  · intro e2 he2
    have hx : (pushEff s e).effectStack = s.effectStack ++ [e] := by
      show (cleanup s e).effectStack ++ [e] = s.effectStack ++ [e]
      rw [cp2]
    rw [hx] at he2
    have hsome : (alistGet (cleanup s e).effects e2).isSome =
        (alistGet s.effects e2).isSome := by
      rw [← effShape_isSome, cleanup_effShape, effShape_isSome]
    show (alistGet (cleanup s e).effects e2).isSome = true
    rw [hsome]
    rcases List.mem_append.mp he2 with hm | hm
    · exact hwf.1 e2 hm
    · simp at hm; subst hm; exact hr
  · show some e = ((cleanup s e).effectStack ++ [e]).getLast?
    rw [List.getLast?_concat]

/-- Eta expansion of an interpreter output whose result is known to be an
error. -/
theorem Out.etaErr (o : Out) (er : Err) (heq : o.res = Except.error er) :
    o = ⟨o.s, o.tr, Except.error er⟩ := by
  rw [← heq]

/-- Eta expansion of an interpreter output whose result is known to be a
value. -/
theorem Out.etaOk (o : Out) (v : Val) (heq : o.res = Except.ok v) :
    o = ⟨o.s, o.tr, Except.ok v⟩ := by
  rw [← heq]

end VueReact

namespace VueReact

/-- The trigger id that a call may legitimately mention in invoke events
below the state fresh-id counter: only a trigList call, for its own id. -/
def lowOf : Call → Option Nat
  | .trigList tid _ => some tid
  | _ => none

/-- Master invariant: every interpreter call preserves wellformedness, queue
monotonicity, trigger-id freshness, registry shape, dependency-evolution,
attribution, stack discipline and the computed invalidation automaton. -/
theorem comboMaster : ∀ (fuel : Nat) (s : Sys) (c : Call), SysWF s →
    ComboP (lowOf c) s (interp fuel s c) := by
  intro fuel
  induction fuel with
  | zero =>
      intro s c hwf
      exact ComboP.benign hwf (fun _ _ => rfl) (fun _ => rfl) (fun _ => rfl)
        (fun _ => rfl) (fun _ => rfl) (fun _ => rfl) rfl rfl (List.prefix_refl _)
        (le_refl _) (by intro ev hev; simp at hev)
  | succ fuel ih =>
      intro s c hwf
      cases c with
      | evalE p =>
          cases p with
          | lit v => exact ComboP.idStep _ hwf
          | readProp t k =>
              exact ComboP.trackStep (.data t) k _ _ hwf
                (by intro ev hev; simp at hev; subst hev; simp [evQuiet])
          | writeProp t k e =>
              have h1 := ih s (.evalE e) hwf
              rcases ho : interp fuel s (.evalE e) with ⟨s1, t1, r1⟩
              rw [ho] at h1
              simp only [interp, ho]
              cases r1 with
              | error er => exact h1
              | ok v =>
                  dsimp only
                  have hmid : ComboP none s1 ⟨setStoreVal s1 t k v, [], .ok v⟩ :=
                    ComboP.benign h1.wf2 (fun _ _ => rfl) (fun _ => rfl) (fun _ => rfl)
                      (fun _ => rfl) (fun _ => rfl) (fun _ => rfl) rfl rfl
                      (List.prefix_refl _) (le_refl _) benignNilTr
                  rcases ho2 : interp (fuel) (setStoreVal s1 t k v) (.trig (.data t) k)
                    with ⟨s2, t2, r2⟩
                  have h2 := ih (setStoreVal s1 t k v) (.trig (.data t) k) hmid.wf2
                  rw [ho2] at h2
                  have hchain := (h1.comp hmid).comp h2
                  cases r2 with
                  | error er => simpa using hchain
                  | ok v2 => simpa using hchain.retagOk
          | seq a b =>
              have h1 := ih s (.evalE a) hwf
              rcases ho : interp fuel s (.evalE a) with ⟨s1, t1, r1⟩
              rw [ho] at h1
              simp only [interp, ho]
              cases r1 with
              | error er => exact h1
              | ok v => exact h1.comp (ih s1 (.evalE b) h1.wf2)
          | add a b =>
              have h1 := ih s (.evalE a) hwf
              rcases ho : interp fuel s (.evalE a) with ⟨s1, t1, r1⟩
              rw [ho] at h1
              simp only [interp, ho]
              cases r1 with
              | error er => exact h1
              | ok v =>
                  have h2 := ih s1 (.evalE b) h1.wf2
                  rcases ho2 : interp fuel s1 (.evalE b) with ⟨s2, t2, r2⟩
                  rw [ho2] at h2
                  cases r2 with
                  | error er => exact h1.comp h2
                  | ok v2 => exact (h1.comp h2).retagOk
          | cond cnd th el =>
              have h1 := ih s (.evalE cnd) hwf
              rcases ho : interp fuel s (.evalE cnd) with ⟨s1, t1, r1⟩
              rw [ho] at h1
              simp only [interp, ho]
              cases r1 with
              | error er => exact h1
              | ok v =>
                  exact h1.comp (ih s1 (.evalE (if truthy v then th else el)) h1.wf2)
          | throwErr => exact ComboP.idStep _ hwf
          | readComputed c => exact ih s (.compRead c) hwf
      | runEff e =>
          simp only [interp]
          cases hr : alistGet s.effects e with
          | none =>
              refine ⟨hwf, List.prefix_refl _, le_refl _, ?_, fun _ => rfl, fun _ => rfl,
                fun _ => rfl, ?_, ?_, ?_, ?_, ?_⟩
              · intro tid e2 hmem
                simp at hmem
              · intro E hno
                exact ReadsEvolve.refl E s _
                  (by rw [attrReads_cons_other E _ [] (by simp)]; rfl)
              · intro E hact hstk hno
                exact ⟨by rw [attrReads_cons_other E _ [] (by simp)]; rfl, hact, hstk⟩
              · intro v hv; simp at hv
              · intro er _; exact List.prefix_refl _
              · intro c2
                rw [autoRun_cons_quiet (by simp [evQuiet])]
                rfl
          | some r =>
              dsimp only
              obtain ⟨cp1, cp2, cp3, cp4, cp5, cp6, cp7, cp8, cp9, cp10, cp11⟩ :=
                cleanup_proj s e
              have hrs : (alistGet s.effects e).isSome = true := by rw [hr]; rfl
              have hwf3 : SysWF (pushEff s e) := SysWF.push hwf e hrs
              have hstkeq : (pushEff s e).effectStack = s.effectStack ++ [e] := by
                show (cleanup s e).effectStack ++ [e] = s.effectStack ++ [e]
                rw [cp2]
              cases hfn : r.fn with
              | prog p =>
                  dsimp only
                  split
                  next er heq =>
                      have h1 := ih (pushEff s e) (.evalE p) hwf3
                      rw [Out.etaErr _ er heq] at h1
                      exact runEffErr hwf rfl hstkeq (fun ck k => rfl) (fun x => rfl)
                        (fun x => cleanup_effShape s e x) cp3 cp5 cp8 cp4 h1
                  next v heq =>
                      have h1 := ih (pushEff s e) (.evalE p) hwf3
                      rw [Out.etaOk _ v heq] at h1
                      exact runEffOk hwf rfl hstkeq (fun ck k => rfl) (fun x => rfl)
                        (fun x => cleanup_effShape s e x) cp3 cp5 cp8 cp4 h1
              | traverseSrc t =>
                  dsimp only
                  have hwf3t : SysWF (pushEffT s e) := hwf3
                  have hstkt : (pushEffT s e).effectStack = s.effectStack ++ [e] := hstkeq
                  split
                  next er heq =>
                      have h1 := ih (pushEffT s e) (.trav (.ref t)) hwf3t
                      rw [Out.etaErr _ er heq] at h1
                      exact runEffErr hwf rfl hstkt (fun ck k => rfl) (fun x => rfl)
                        (fun x => cleanup_effShape s e x) cp3 cp5 cp8 cp4 h1
                  next v heq =>
                      have h1 := ih (pushEffT s e) (.trav (.ref t)) hwf3t
                      rw [Out.etaOk _ v heq] at h1
                      exact runEffOk hwf rfl hstkt (fun ck k => rfl) (fun x => rfl)
                        (fun x => cleanup_effShape s e x) cp3 cp5 cp8 cp4 h1
      | trig ck k =>
          simp only [interp]
          cases hb : alistGet s.bucket ck with
          | none =>
              exact ComboP.benign hwf (fun _ _ => rfl) (fun _ => rfl) (fun _ => rfl)
                (fun _ => rfl) (fun _ => rfl) (fun _ => rfl) rfl rfl
                (List.prefix_refl _) (le_refl _)
                (by intro ev hev; simp at hev; subst hev; simp [evQuiet])
          | some m =>
              dsimp only
              exact ComboP.trigWrap ck k hwf (ih _ (.trigList s.nextTrig _) hwf)
      | trigList tid l =>
          cases l with
          | nil => exact ComboP.idStep _ hwf
          | cons e rest =>
              simp only [interp]
              cases hsc : (alistGet s.effects e).bind (fun r => r.opts.scheduler) with
              | some sc =>
                  dsimp only
                  rcases ho : interp fuel s (.schedC sc e) with ⟨s2, t2, r2⟩
                  have h1 := ComboP.weaken (some tid) (ih s (.schedC sc e) hwf)
                  rw [ho] at h1
                  cases r2 with
                  | error er =>
                      exact ComboP.prependEv _ (by simp [evQuiet]) (by simp)
                        (by intro tid2 e2 hc; cases hc; rfl) h1
                  | ok v =>
                      have h3 := ih s2 (.trigList tid rest) h1.wf2
                      have hpre : ComboP (some tid) s ⟨s2, .invokeEv tid e :: t2, .ok v⟩ :=
                        ComboP.prependEv _ (by simp [evQuiet]) (by simp)
                          (by intro tid2 e2 hc; cases hc; rfl) h1
                      exact hpre.comp h3
              | none =>
                  dsimp only
                  rcases ho : interp fuel s (.runEff e) with ⟨s2, t2, r2⟩
                  have h1 := ComboP.weaken (some tid) (ih s (.runEff e) hwf)
                  rw [ho] at h1
                  cases r2 with
                  | error er =>
                      exact ComboP.prependEv _ (by simp [evQuiet]) (by simp)
                        (by intro tid2 e2 hc; cases hc; rfl) h1
                  | ok v =>
                      have h3 := ih s2 (.trigList tid rest) h1.wf2
                      have hpre : ComboP (some tid) s ⟨s2, .invokeEv tid e :: t2, .ok v⟩ :=
                        ComboP.prependEv _ (by simp [evQuiet]) (by simp)
                          (by intro tid2 e2 hc; cases hc; rfl) h1
                      exact hpre.comp h3
      | schedC sc e =>
          cases sc with
          | batch =>
              simp only [interp]
              by_cases hf : ({ s with jobQueue := addEffToSet s.jobQueue e } : Sys).isFlushing
              · rw [if_pos hf]
                exact ComboP.benign hwf (fun _ _ => rfl) (fun _ => rfl) (fun _ => rfl)
                  (fun _ => rfl) (fun _ => rfl) (fun _ => rfl) rfl rfl
                  (prefix_addEffToSet _ _) (le_refl _)
                  (by intro ev hev; simp at hev; subst hev; simp [evQuiet])
              · rw [if_neg hf]
                exact ComboP.benign hwf (fun _ _ => rfl) (fun _ => rfl) (fun _ => rfl)
                  (fun _ => rfl) (fun _ => rfl) (fun _ => rfl) rfl rfl
                  (prefix_addEffToSet _ _) (le_refl _)
                  (by intro ev hev; simp at hev; subst hev; simp [evQuiet])
          | computedSched c =>
              simp only [interp]
              cases hc : alistGet s.comps c with
              | none =>
                  exact ComboP.benign hwf (fun _ _ => rfl) (fun _ => rfl) (fun _ => rfl)
                    (fun _ => rfl) (fun _ => rfl) (fun _ => rfl) rfl rfl
                    (List.prefix_refl _) (le_refl _)
                    (by intro ev hev; simp at hev; subst hev; simp [evQuiet])
              | some cr =>
                  dsimp only
                  by_cases hdt : cr.dirty
                  · rw [if_pos hdt]
                    exact ComboP.benign hwf (fun _ _ => rfl) (fun _ => rfl) (fun _ => rfl)
                      (fun _ => rfl) (fun _ => rfl) (fun _ => rfl) rfl rfl
                      (List.prefix_refl _) (le_refl _)
                      (by intro ev hev; simp at hev; subst hev; simp [evQuiet])
                  · rw [if_neg hdt]
                    obtain ⟨cs1, cs2, cs3⟩ := compsSet hc { cr with dirty := true } rfl
                    have h1 := ih { s with comps := alistSet s.comps c { cr with dirty := true } }
                      (.trig (.comp c) "value") hwf
                    refine ⟨h1.wf2, h1.jobPre, h1.trigMono, ?_, h1.effShapeEq, ?_, h1.watchesEq,
                      ?_, ?_, h1.stackOk, h1.stackErr, ?_⟩
                    · intro tid e2 hmem
                      simp only [List.mem_cons] at hmem
                      rcases hmem with hcs | hcs | hcs
                      · exact Ev.noConfusion hcs
                      · exact Ev.noConfusion hcs
                      · rcases h1.invokeBound tid e2 hcs with hge | hl
                        · exact Or.inl hge
                        · exact Option.noConfusion hl
                    · intro x
                      rw [h1.compsEq x, cs3 x]
                    · intro E hno
                      have hno2 : Ev.runStart E ∉
                          (interp fuel { s with comps := alistSet s.comps c { cr with dirty := true } }
                            (.trig (.comp c) "value")).tr := by
                        intro hm
                        exact hno (by simp [hm])
                      obtain ⟨d1, b1⟩ := h1.readsEvo E hno2
                      have ha : ∀ tr0 : List Ev,
                          attrReads E (Ev.schedEv e :: Ev.invalidateEv c :: tr0) =
                            attrReads E tr0 := fun tr0 => by
                        rw [attrReads_cons_other _ _ _ (by simp),
                          attrReads_cons_other _ _ _ (by simp)]
                      exact ⟨by rw [ha]; exact d1, fun ck2 k2 => by rw [ha]; exact b1 ck2 k2⟩
                    · intro E hact hstk hno
                      have hno2 : Ev.runStart E ∉
                          (interp fuel { s with comps := alistSet s.comps c { cr with dirty := true } }
                            (.trig (.comp c) "value")).tr := by
                        intro hm
                        exact hno (by simp [hm])
                      obtain ⟨a1, a2, a3⟩ := h1.attrib E hact hstk hno2
                      have ha : ∀ tr0 : List Ev,
                          attrReads E (Ev.schedEv e :: Ev.invalidateEv c :: tr0) =
                            attrReads E tr0 := fun tr0 => by
                        rw [attrReads_cons_other _ _ _ (by simp),
                          attrReads_cons_other _ _ _ (by simp)]
                      exact ⟨by rw [ha]; exact a1, a2, a3⟩
                    · intro c2
                      by_cases hcc : c2 = c
                      · subst hcc
                        have hds : dirtyOf s c2 = false := by
                          cases hb2 : cr.dirty with
                          | true => exact absurd hb2 hdt
                          | false => simp [dirtyOf, hc, hb2]
                        rw [autoRun_cons_quiet (by simp [evQuiet]), hds,
                          autoRun_cons_of_step
                            (show autoStep c2 false (Ev.invalidateEv c2) = some true by
                              simp [autoStep])]
                        have := h1.dirtyAuto c2
                        rw [cs1] at this
                        exact this
                      · have hq2 : evQuiet c2 (Ev.invalidateEv c) := by
                          refine ⟨?_, by simp⟩
                          intro h
                          injection h with h2
                          exact hcc h2.symm
                        rw [autoRun_cons_quiet (by simp [evQuiet]),
                          autoRun_cons_quiet hq2]
                        have := h1.dirtyAuto c2
                        rw [cs2 c2 hcc] at this
                        exact this
          | watchSched w =>
              simp only [interp]
              cases hw0 : alistGet s.watches w with
              | none =>
                  exact ComboP.benign hwf (fun _ _ => rfl) (fun _ => rfl) (fun _ => rfl)
                    (fun _ => rfl) (fun _ => rfl) (fun _ => rfl) rfl rfl
                    (List.prefix_refl _) (le_refl _)
                    (by intro ev hev; simp at hev; subst hev; simp [evQuiet])
              | some wr =>
                  dsimp only
                  by_cases hp : wr.flushPost
                  · rw [if_pos hp]
                    exact ComboP.benign hwf (fun _ _ => rfl) (fun _ => rfl) (fun _ => rfl)
                      (fun _ => rfl) (fun _ => rfl) (fun _ => rfl) rfl rfl
                      (List.prefix_refl _) (le_refl _)
                      (by intro ev hev; simp at hev; subst hev; simp [evQuiet])
                  · rw [if_neg hp]
                    exact ComboP.prependEv _ (by simp [evQuiet]) (by simp)
                      (by intro tid2 e2 hc2; cases hc2) (ih s (.watchJobC w) hwf)
      | compRead c =>
          simp only [interp]
          cases hc : alistGet s.comps c with
          | none => exact ComboP.idStep _ hwf
          | some cr =>
              dsimp only
              by_cases hdt : cr.dirty
              · rw [if_pos hdt]
                rcases ho : interp fuel s (.runEff cr.effId) with ⟨s2, t2, r2⟩
                have h1 := ih s (.runEff cr.effId) hwf
                rw [ho] at h1
                cases r2 with
                | error er => exact h1
                | ok v =>
                    dsimp only
                    have hce : compEffOf s2 c = some cr.effId := by
                      rw [h1.compsEq c]
                      simp [compEffOf, hc]
                    obtain ⟨cr2, hc2, heff2⟩ : ∃ cr2, alistGet s2.comps c = some cr2 ∧
                        cr.effId = cr2.effId := by
                      cases hx : alistGet s2.comps c with
                      | none => simp [compEffOf, hx] at hce
                      | some cc =>
                          refine ⟨cc, rfl, ?_⟩
                          simp [compEffOf, hx] at hce
                          exact hce.symm
                    have hstep := @compReadStep s2 c cr cr2 v hc2 heff2 h1.wf2 (Except.ok v)
                    have hch := h1.comp hstep
                    simpa [List.append_assoc] using hch
              · rw [if_neg hdt]
                have h0 : ComboP none s ⟨(track s (.comp c) "value").1,
                    (track s (.comp c) "value").2 ++ [], .ok cr.cache⟩ :=
                  ComboP.trackStep (.comp c) "value" [] (.ok cr.cache) hwf benignNilTr
                rw [List.append_nil] at h0
                have htc : (track s (.comp c) "value").1.comps = s.comps :=
                  (track_proj _ _ _).2.2.1
                have hdx : dirtyOf (track s (.comp c) "value").1 c = false := by
                  rw [dirtyOf_congr htc]
                  cases hb2 : cr.dirty with
                  | true => exact absurd hb2 hdt
                  | false => simp [dirtyOf, hc, hb2]
                have hau : ∀ c2, autoStep c2
                    (dirtyOf (track s (.comp c) "value").1 c2) (Ev.compReadEv c) =
                    some (dirtyOf (track s (.comp c) "value").1 c2) := by
                  intro c2
                  by_cases hcc : c2 = c
                  · subst hcc
                    rw [hdx]
                    simp [autoStep]
                  · have hne2 : ¬(Ev.compReadEv c = Ev.compReadEv c2) := by
                      intro h; injection h with h2; exact hcc h2.symm
                    simp [autoStep, hne2]
                exact ComboP.appendEv (Ev.compReadEv c) (by simp)
                  (by intro a b hcx; cases hcx) hau h0
      | watchJobC w =>
          simp only [interp]
          cases hw0 : alistGet s.watches w with
          | none => exact ComboP.idStep _ hwf
          | some wr =>
              dsimp only
              rcases ho : interp fuel s (.runEff wr.effId) with ⟨s2, t2, r2⟩
              have h1 := ih s (.runEff wr.effId) hwf
              rw [ho] at h1
              cases r2 with
              | error er => exact h1
              | ok nv =>
                  dsimp only
                  cases hw2 : alistGet s2.watches w with
                  | none => exact h1.retagOkToErr
                  | some wr2 =>
                      have hmid : ComboP none s2
                          ⟨{ s2 with watches := alistSet s2.watches w { wr2 with oldValue := nv } },
                           [Ev.cbCall w nv wr2.oldValue], .ok .undef⟩ :=
                        ComboP.benign h1.wf2 (fun _ _ => rfl) (fun _ => rfl) (fun _ => rfl)
                          (fun _ => rfl) (watchSetOld hw2 nv) (fun _ => rfl) rfl rfl
                          (List.prefix_refl _) (le_refl _)
                          (by intro ev hev; simp at hev; subst hev; simp [evQuiet])
                      exact h1.comp hmid
      | trav v =>
          cases v with
          | ref t =>
              simp only [interp]
              by_cases hseen : t ∈ s.seen
              · rw [if_pos hseen]
                exact ComboP.idStep _ hwf
              · rw [if_neg hseen]
                have hmid : ComboP none s
                    ⟨{ s with seen := s.seen ++ [t] }, [], .ok .undef⟩ :=
                  ComboP.benign hwf (fun _ _ => rfl) (fun _ => rfl) (fun _ => rfl)
                    (fun _ => rfl) (fun _ => rfl) (fun _ => rfl) rfl rfl
                    (List.prefix_refl _) (le_refl _) benignNilTr
                exact hmid.comp (ih { s with seen := s.seen ++ [t] } (.travKeys t _) hmid.wf2)
          | undef => exact ComboP.idStep _ hwf
          | num n => exact ComboP.idStep _ hwf
          | boolV b => exact ComboP.idStep _ hwf
          | strV st => exact ComboP.idStep _ hwf
      | travKeys t kvs =>
          cases kvs with
          | nil => exact ComboP.idStep _ hwf
          | cons kv rest =>
              obtain ⟨k, v0⟩ := kv
              simp only [interp]
              by_cases hp : t ∈ s.proxies
              · rw [if_pos hp]
                dsimp only
                have h0 : ComboP none s ⟨(track s (.data t) k).1,
                    (track s (.data t) k).2 ++
                      [Ev.getEv t k (getStoreVal (track s (.data t) k).1 t k)], .ok .undef⟩ :=
                  ComboP.trackStep (.data t) k _ _ hwf
                    (by intro ev hev; simp at hev; subst hev; simp [evQuiet])
                rcases ho : interp fuel (track s (.data t) k).1
                    (.trav (getStoreVal (track s (.data t) k).1 t k)) with ⟨s2, t2, r2⟩
                have h1 := ih (track s (.data t) k).1
                  (.trav (getStoreVal (track s (.data t) k).1 t k)) h0.wf2
                rw [ho] at h1
                have hc1 := h0.comp h1
                cases r2 with
                | error er => exact hc1
                | ok v1 =>
                    have h2 := ih s2 (.travKeys t rest) h1.wf2
                    exact hc1.comp h2
              · rw [if_neg hp]
                dsimp only
                rcases ho : interp fuel s (.trav (getStoreVal s t k)) with ⟨s2, t2, r2⟩
                have h1 := ih s (.trav (getStoreVal s t k)) hwf
                rw [ho] at h1
                cases r2 with
                | error er => exact h1
                | ok v1 =>
                    have h2 := ih s2 (.travKeys t rest) h1.wf2
                    exact h1.comp h2
      | flushIdx i =>
          simp only [interp]
          cases hj : (s.jobQueue.drop i).head? with
          | none =>
              exact ComboP.benign hwf (fun _ _ => rfl) (fun _ => rfl) (fun _ => rfl)
                (fun _ => rfl) (fun _ => rfl) (fun _ => rfl) rfl rfl
                (List.prefix_refl _) (le_refl _) benignNilTr
          | some j =>
              dsimp only
              rcases ho : interp fuel s (.runEff j) with ⟨s2, t2, r2⟩
              have h1 := ih s (.runEff j) hwf
              rw [ho] at h1
              cases r2 with
              | error er =>
                  have h2 : ComboP none s ⟨s2, Ev.jobExecEv j :: t2, Except.error er⟩ :=
                    ComboP.prependEv _ (by simp [evQuiet]) (by simp) (by intro a b hcx; cases hcx) h1
                  refine ComboP.retarget ?_ ?_ ?_ ?_ ?_ ?_ ?_ ?_ ?_ ?_ h2 <;> intros <;> rfl
              | ok v =>
                  have h3 := ih s2 (.flushIdx (i + 1)) h1.wf2
                  have hpre : ComboP none s ⟨s2, Ev.jobExecEv j :: t2, .ok v⟩ :=
                    ComboP.prependEv _ (by simp [evQuiet]) (by simp) (by intro a b hcx; cases hcx) h1
                  exact hpre.comp h3
      | drain =>
          simp only [interp]
          cases hm : s.microtasks with
          | nil => exact ComboP.idStep _ hwf
          | cons m rest =>
              dsimp only
              have hmid : ComboP none s ⟨{ s with microtasks := rest }, [], .ok .undef⟩ :=
                ComboP.benign hwf (fun _ _ => rfl) (fun _ => rfl) (fun _ => rfl)
                  (fun _ => rfl) (fun _ => rfl) (fun _ => rfl) rfl rfl
                  (List.prefix_refl _) (le_refl _) benignNilTr
              cases m with
              | flushTask =>
                  dsimp only
                  rcases ho : interp fuel { s with microtasks := rest } (.flushIdx 0)
                    with ⟨s2, t2, r2⟩
                  have h1 := ih { s with microtasks := rest } (.flushIdx 0) hmid.wf2
                  rw [ho] at h1
                  have hc1 := hmid.comp h1
                  cases r2 with
                  | error er => simpa using hc1
                  | ok v =>
                      have h2 := ih s2 .drain h1.wf2
                      simpa using hc1.comp h2
              | watchJob w =>
                  dsimp only
                  rcases ho : interp fuel { s with microtasks := rest } (.watchJobC w)
                    with ⟨s2, t2, r2⟩
                  have h1 := ih { s with microtasks := rest } (.watchJobC w) hmid.wf2
                  rw [ho] at h1
                  have hc1 := hmid.comp h1
                  cases r2 with
                  | error er => simpa using hc1
                  | ok v =>
                      have h2 := ih s2 .drain h1.wf2
                      simpa using hc1.comp h2

end VueReact


namespace VueReact

/-! ### Invocation lists of a trigger -/

theorem invokesOf_nil_of {tid : Nat} {tr : List Ev}
    (h : ∀ tid2 e2, Ev.invokeEv tid2 e2 ∈ tr → tid2 ≠ tid) :
    invokesOf tid tr = [] := by
  rw [invokesOf, List.filterMap_eq_nil_iff]
  intro ev hev
  cases ev <;> try rfl
  case invokeEv t2 e2 =>
    show (if t2 = tid then some e2 else none) = none
    rw [if_neg (h t2 e2 hev)]

theorem invokesOf_cons_self (tid : Nat) (e : EffId) (tr : List Ev) :
    invokesOf tid (Ev.invokeEv tid e :: tr) = e :: invokesOf tid tr := by
  simp [invokesOf, List.filterMap_cons]

theorem invokesOf_append (tid : Nat) (t1 t2 : List Ev) :
    invokesOf tid (t1 ++ t2) = invokesOf tid t1 ++ invokesOf tid t2 := by
  simp [invokesOf, List.filterMap_append]

theorem invokesOf_cons_other (tid : Nat) (ev : Ev) (tr : List Ev)
    (h : ∀ e, ev ≠ Ev.invokeEv tid e) :
    invokesOf tid (ev :: tr) = invokesOf tid tr := by
  cases ev <;> try rfl
  case invokeEv t2 e2 =>
    have ht2 : ¬t2 = tid := fun hx => h e2 (by rw [hx])
    simp [invokesOf, List.filterMap_cons, ht2]

/-- The iteration of `trigger` over an `effectsToRun` snapshot `l` invokes a
prefix of `l` (all of it when no error interrupts), and nothing else carries
its trigger id. -/
theorem trigListInvokes : ∀ (fuel : Nat) (s : Sys) (tid : Nat) (l : List EffId),
    SysWF s → tid < s.nextTrig →
    (invokesOf tid (interp fuel s (.trigList tid l)).tr <+: l ∧
     ∀ v, (interp fuel s (.trigList tid l)).res = Except.ok v →
       invokesOf tid (interp fuel s (.trigList tid l)).tr = l) := by
  intro fuel
  induction fuel with
  | zero =>
      intro s tid l _ _
      exact ⟨List.nil_prefix, fun v hv => Except.noConfusion hv⟩
  | succ fuel ih =>
      intro s tid l hwf htid
      cases l with
      | nil => exact ⟨List.nil_prefix, fun v _ => rfl⟩
      | cons e rest =>
          simp only [interp]
          cases hsc : (alistGet s.effects e).bind (fun r => r.opts.scheduler) with
          | some sc =>
              dsimp only
              rcases ho : interp fuel s (.schedC sc e) with ⟨s2, t2, r2⟩
              have hm := comboMaster fuel s (.schedC sc e) hwf
              rw [ho] at hm
              have hq : invokesOf tid t2 = [] := by
                refine invokesOf_nil_of ?_
                intro tid2 e2 hmem
                rcases hm.invokeBound tid2 e2 hmem with hge | hl
                · exact fun hx => absurd (hx ▸ hge) (Nat.not_le.mpr htid)
                · exact Option.noConfusion hl
              cases r2 with
              | error er =>
                  dsimp only
                  refine ⟨?_, fun v hv => Except.noConfusion hv⟩
                  rw [invokesOf_cons_self, hq]
                  exact ⟨rest, rfl⟩
              | ok v1 =>
                  dsimp only
                  rcases ho2 : interp fuel s2 (.trigList tid rest) with ⟨s3, t3, r3⟩
                  have hr := ih s2 tid rest hm.wf2 (lt_of_lt_of_le htid hm.trigMono)
                  rw [ho2] at hr
                  dsimp only at hr
                  constructor
                  · rw [invokesOf_cons_self, invokesOf_append, hq, List.nil_append]
                    exact hr.1.elim fun t ht => ⟨t, by rw [List.cons_append, ht]⟩
                  · intro v hv
                    rw [invokesOf_cons_self, invokesOf_append, hq, List.nil_append,
                        hr.2 v hv]
          | none =>
              dsimp only
              rcases ho : interp fuel s (.runEff e) with ⟨s2, t2, r2⟩
              have hm := comboMaster fuel s (.runEff e) hwf
              rw [ho] at hm
              have hq : invokesOf tid t2 = [] := by
                refine invokesOf_nil_of ?_
                intro tid2 e2 hmem
                rcases hm.invokeBound tid2 e2 hmem with hge | hl
                · exact fun hx => absurd (hx ▸ hge) (Nat.not_le.mpr htid)
                · exact Option.noConfusion hl
              cases r2 with
              | error er =>
                  dsimp only
                  refine ⟨?_, fun v hv => Except.noConfusion hv⟩
                  rw [invokesOf_cons_self, hq]
                  exact ⟨rest, rfl⟩
              | ok v1 =>
                  dsimp only
                  rcases ho2 : interp fuel s2 (.trigList tid rest) with ⟨s3, t3, r3⟩
                  have hr := ih s2 tid rest hm.wf2 (lt_of_lt_of_le htid hm.trigMono)
                  rw [ho2] at hr
                  dsimp only at hr
                  constructor
                  · rw [invokesOf_cons_self, invokesOf_append, hq, List.nil_append]
                    exact hr.1.elim fun t ht => ⟨t, by rw [List.cons_append, ht]⟩
                  · intro v hv
                    rw [invokesOf_cons_self, invokesOf_append, hq, List.nil_append,
                        hr.2 v hv]

/-- A `trigger(target, key)` call invokes a prefix of the snapshot taken at its
start, and exactly the snapshot when it completes without error. -/
theorem trigInvokes (fuel : Nat) (s : Sys) (ck : CKey) (k : Key) (hwf : SysWF s) :
    invokesOf s.nextTrig (interp (fuel + 1) s (.trig ck k)).tr <+:
      triggerSnapshot s ck k ∧
    ∀ v, (interp (fuel + 1) s (.trig ck k)).res = Except.ok v →
      invokesOf s.nextTrig (interp (fuel + 1) s (.trig ck k)).tr =
        triggerSnapshot s ck k := by
  simp only [interp]
  cases hb : alistGet s.bucket ck with
  | none =>
      dsimp only
      have hs0 : triggerSnapshot s ck k = [] := by
        simp [triggerSnapshot, bucketSet, hb, alistGet]
      rw [hs0]
      exact ⟨List.nil_prefix, fun v _ => rfl⟩
  | some m =>
      dsimp only
      have hbs : bucketSet s ck k = (alistGet m k).getD [] := by
        simp [bucketSet, hb]
      rw [show ((alistGet m k).getD []).filter (fun f => some f ≠ s.activeEffect) =
          triggerSnapshot s ck k from by rw [triggerSnapshot, hbs]]
      have h := trigListInvokes fuel { s with nextTrig := s.nextTrig + 1 }
        s.nextTrig (triggerSnapshot s ck k) hwf (Nat.lt_succ_self _)
      constructor
      · rw [invokesOf_cons_other _ _ _ (fun e hx => Ev.noConfusion hx)]
        exact h.1
      · intro v hv
        rw [invokesOf_cons_other _ _ _ (fun e hx => Ev.noConfusion hx)]
        exact h.2 v hv

end VueReact


namespace VueReact

/-! ### A completed effect run determines the effect's subscriptions -/

/-- After a completed run of effect `E` (its only start in the run), `E` is a
member of exactly the dependency Sets of the reads attributed to `E` during
that run: the `cleanup` at the head of the runner removed every old edge. -/
theorem runSelfBucket (fuel : Nat) (s : Sys) (E : EffId) (hwf : SysWF s)
    (hcov : ∀ ck k, E ∈ bucketSet s ck k → (ck, k) ∈ depsOf s E)
    {s1 : Sys} {t1 : List Ev} {v : Val}
    (hrun : interp (fuel + 1) s (.runEff E) = ⟨s1, t1, Except.ok v⟩)
    (honce : countRunStart E t1 = 1) :
    ∀ ck k, (E ∈ bucketSet s1 ck k ↔ (ck, k) ∈ attrReads E t1) := by
  simp only [interp] at hrun
  cases hr : alistGet s.effects E with
  | none =>
      rw [hr] at hrun
      dsimp only at hrun
      injection hrun with h1 h2 h3
      exact Except.noConfusion h3
  | some r =>
      rw [hr] at hrun
      dsimp only at hrun
      cases hfn : r.fn with
      | prog p =>
          rw [hfn] at hrun
          dsimp only at hrun
          rcases ho : interp fuel (pushEff s E) (.evalE p) with ⟨s2, t2, r2⟩
          rw [ho] at hrun
          dsimp only at hrun
          cases r2 with
          | error er =>
              injection hrun with h1 h2 h3
              exact Except.noConfusion h3
          | ok v2 =>
              injection hrun with h1 h2 h3
              injection h3 with h3
              subst h1
              subst h2
              subst h3
              have hcnt0 : countRunStart E t2 = 0 := by
                simp [countRunStart, List.countP_cons, List.countP_append] at honce
                simpa [countRunStart] using honce
              have hcnt : Ev.runStart E ∉ t2 := by
                intro hmem
                rw [countRunStart, List.countP_eq_zero] at hcnt0
                simpa using hcnt0 _ hmem
              have hm := comboMaster fuel (pushEff s E) (.evalE p)
                (SysWF.push hwf E (by rw [hr]; rfl))
              rw [ho] at hm
              have hre := hm.readsEvo E hcnt
              intro ck k
              have hat : attrReads E (Ev.runStart E :: (t2 ++ [Ev.runEnd E])) =
                  attrReads E t2 := by
                rw [attrReads_cons_other E _ _ (by intro e ck2 k2 h; cases h),
                    attrReads_append,
                    show attrReads E [Ev.runEnd E] = [] from rfl, List.append_nil]
              rw [hat]
              show E ∈ bucketSet s2 ck k ↔ (ck, k) ∈ attrReads E t2
              rw [hre.2 ck k]
              have hpz : ¬E ∈ bucketSet (pushEff s E) ck k := by
                show ¬E ∈ bucketSet (cleanup s E) ck k
                exact (cleanup_self s E hcov).2 ck k
              exact or_iff_right hpz
      | traverseSrc t =>
          rw [hfn] at hrun
          dsimp only at hrun
          rcases ho : interp fuel (pushEffT s E) (.trav (.ref t)) with ⟨s2, t2, r2⟩
          rw [ho] at hrun
          dsimp only at hrun
          cases r2 with
          | error er =>
              injection hrun with h1 h2 h3
              exact Except.noConfusion h3
          | ok v2 =>
              injection hrun with h1 h2 h3
              injection h3 with h3
              subst h1
              subst h2
              subst h3
              have hcnt0 : countRunStart E t2 = 0 := by
                simp [countRunStart, List.countP_cons, List.countP_append] at honce
                simpa [countRunStart] using honce
              have hcnt : Ev.runStart E ∉ t2 := by
                intro hmem
                rw [countRunStart, List.countP_eq_zero] at hcnt0
                simpa using hcnt0 _ hmem
              have hwf3 : SysWF (pushEffT s E) := SysWF.push hwf E (by rw [hr]; rfl)
              have hm := comboMaster fuel (pushEffT s E) (.trav (.ref t)) hwf3
              rw [ho] at hm
              have hre := hm.readsEvo E hcnt
              intro ck k
              have hat : attrReads E (Ev.runStart E :: (t2 ++ [Ev.runEnd E])) =
                  attrReads E t2 := by
                rw [attrReads_cons_other E _ _ (by intro e ck2 k2 h; cases h),
                    attrReads_append,
                    show attrReads E [Ev.runEnd E] = [] from rfl, List.append_nil]
              rw [hat]
              show E ∈ bucketSet s2 ck k ↔ (ck, k) ∈ attrReads E t2
              rw [hre.2 ck k]
              have hpz : ¬E ∈ bucketSet (pushEffT s E) ck k := by
                show ¬E ∈ bucketSet (cleanup s E) ck k
                exact (cleanup_self s E hcov).2 ck k
              exact or_iff_right hpz

/-- A state used to witness C1: a stale dependency edge for effect `0` under
`(data 0, "a")` recorded both in the bucket and in the effect's deps list. -/
def c1sys : Sys :=
  ⟨[(0, [("a", .num 1)])], [0], [(.data 0, [("a", [0])])], none, [],
   [(0, ⟨.prog (.lit .undef), ⟨none, false⟩, [(.data 0, "a")]⟩)], 1,
   [], 0, [], 0, [], false, [], 0, []⟩

/-- C1: cleanup prevents stale re-runs.  After a completed run of effect `E`
(started exactly once in it), `E`'s dependency-set memberships are exactly the
reads attributed to that run; hence a subsequent write to a property `E` did
not read in that run does not invoke `E` — neither directly nor through its
scheduler. -/
theorem C1_cleanup_prevents_stale_rerun
    (fuel fuel2 : Nat) (s : Sys) (E : EffId) (t : Target) (k : Key) (w : Val)
    (hwf : SysWF s)
    (hcov : ∀ ck2 k2, E ∈ bucketSet s ck2 k2 → (ck2, k2) ∈ depsOf s E)
    {s1 : Sys} {t1 : List Ev} {v : Val}
    (hrun : interp (fuel + 1) s (.runEff E) = ⟨s1, t1, Except.ok v⟩)
    (honce : countRunStart E t1 = 1)
    (hnr : (CKey.data t, k) ∉ attrReads E t1) :
    (∀ ck2 k2, E ∈ bucketSet s1 ck2 k2 ↔ (ck2, k2) ∈ attrReads E t1) ∧
    E ∉ invokesOf s1.nextTrig
      (interp (fuel2 + 2) s1 (.evalE (.writeProp t k (.lit w)))).tr := by
  have hbs := runSelfBucket fuel s E hwf hcov hrun honce
  have hwf1 : SysWF s1 := by
    have hm := comboMaster (fuel + 1) s (.runEff E) hwf
    rw [hrun] at hm
    exact hm.wf2
  refine ⟨hbs, ?_⟩
  have hstep : interp (fuel2 + 2) s1 (.evalE (.writeProp t k (.lit w))) =
      match (interp (fuel2 + 1) (setStoreVal s1 t k w) (.trig (.data t) k)).res with
      | .error er =>
          ⟨(interp (fuel2 + 1) (setStoreVal s1 t k w) (.trig (.data t) k)).s,
           [] ++ (interp (fuel2 + 1) (setStoreVal s1 t k w) (.trig (.data t) k)).tr,
           .error er⟩
      | .ok _ =>
          ⟨(interp (fuel2 + 1) (setStoreVal s1 t k w) (.trig (.data t) k)).s,
           [] ++ (interp (fuel2 + 1) (setStoreVal s1 t k w) (.trig (.data t) k)).tr,
           .ok w⟩ := rfl
  rw [hstep]
  rcases ho2 : interp (fuel2 + 1) (setStoreVal s1 t k w) (.trig (.data t) k)
    with ⟨s3, t3, r3⟩
  have h := trigInvokes fuel2 (setStoreVal s1 t k w) (.data t) k hwf1
  rw [ho2] at h
  dsimp only at h
  have hsnap : E ∉ triggerSnapshot (setStoreVal s1 t k w) (.data t) k := by
    show E ∉ (bucketSet s1 (.data t) k).filter (fun f => some f ≠ s1.activeEffect)
    intro hmem
    exact hnr ((hbs (.data t) k).mp (List.mem_of_mem_filter hmem))
  cases r3 with
  | error er =>
      show E ∉ invokesOf s1.nextTrig ([] ++ t3)
      rw [List.nil_append]
      exact fun hmem => hsnap (h.1.subset hmem)
  | ok v3 =>
      show E ∉ invokesOf s1.nextTrig ([] ++ t3)
      rw [List.nil_append]
      exact fun hmem => hsnap (h.1.subset hmem)

/-- The coverage hypothesis of C1 holds for the witness state: the only
dependency-set membership of effect 0 is recorded in its deps list. -/
theorem c1cov : ∀ ck2 k2, (0 : EffId) ∈ bucketSet c1sys ck2 k2 →
    (ck2, k2) ∈ depsOf c1sys 0 := by
  intro ck2 k2 hmem
  cases ck2 with
  | comp c => simp [bucketSet, c1sys, alistGet] at hmem
  | data t =>
      by_cases ht : t = 0
      · subst ht
        by_cases hk : k2 = "a"
        · subst hk
          simp [depsOf, c1sys, alistGet]
        · have hk2 : ¬("a" = k2) := fun h => hk h.symm
          simp [bucketSet, c1sys, alistGet, hk2] at hmem
      · have ht2 : ¬((0 : Target) = t) := fun h => ht h.symm
        simp [bucketSet, c1sys, alistGet, ht2] at hmem

/-- Closed instance for the C1 witness: running the stale-edged effect and then
writing the stale property. -/
theorem C1_witness :
    SysWF c1sys ∧
    countRunStart 0 (interp 5 c1sys (.runEff 0)).tr = 1 ∧
    ((∀ ck2 k2, (0 : EffId) ∈ bucketSet (interp 5 c1sys (.runEff 0)).s ck2 k2 ↔
        (ck2, k2) ∈ attrReads 0 (interp 5 c1sys (.runEff 0)).tr) ∧
     (0 : EffId) ∉ invokesOf (interp 5 c1sys (.runEff 0)).s.nextTrig
       (interp 6 (interp 5 c1sys (.runEff 0)).s
         (.evalE (.writeProp 0 "a" (.lit (.num 9))))).tr) := by
  refine ⟨⟨by decide, by decide⟩, by decide, ?_⟩
  exact C1_cleanup_prevents_stale_rerun 4 4 c1sys 0 0 "a" (.num 9)
    ⟨by decide, by decide⟩ c1cov rfl (by decide) (by decide)

end VueReact


namespace VueReact

/-- The self-read-write scenario: one effect that both reads and writes
`n` during its own run, followed by one external increment of `n`. -/
def c2init : Sys := initSys [(0, [("n", .num 0)])] [0]

def c2ops : List Op :=
  [.registerEffect
     (.prog (.writeProp 0 "n" (.add (.readProp 0 "n") (.lit (.num 1)))))
     ⟨none, false⟩,
   .incOp 0 "n"]

/-- A wellformed state with effect `0` currently active, used to witness C2. -/
def c2active : Sys :=
  ⟨[], [], [], some 0, [0], [(0, ⟨.prog (.lit .undef), ⟨none, false⟩, []⟩)], 1,
   [], 0, [], 0, [], false, [], 0, []⟩

/-- C2: self-trigger suppression.  While `E` is the active effect, a trigger
never invokes `E` — it is excluded from the snapshot, hence from the trigger's
invocation list; consequently an effect that reads and writes the same
property terminates and runs exactly once per external trigger (registration
run plus one re-run in the concrete self-read-write scenario). -/
theorem C2_self_trigger_suppression (fuel : Nat) (s : Sys) (ck : CKey) (k : Key)
    (E : EffId) (hwf : SysWF s) (hact : s.activeEffect = some E) :
    E ∉ triggerSnapshot s ck k ∧
    E ∉ invokesOf s.nextTrig (interp (fuel + 1) s (.trig ck k)).tr ∧
    ((runOps 30 c2init c2ops).res = Except.ok .undef ∧
     countRunStart 0 (runOps 30 c2init c2ops).tr = 2) := by
  have hsnap : E ∉ triggerSnapshot s ck k := by
    simp [triggerSnapshot, hact]
  refine ⟨hsnap, ?_, by decide, by decide⟩
  intro hmem
  exact hsnap ((trigInvokes fuel s ck k hwf).1.subset hmem)

/-- Closed instance of C2 at a state with an active effect. -/
theorem C2_witness :
    SysWF c2active ∧ c2active.activeEffect = some 0 ∧
    ((0 : EffId) ∉ triggerSnapshot c2active (.data 0) "n" ∧
     (0 : EffId) ∉ invokesOf c2active.nextTrig
       (interp 3 c2active (.trig (.data 0) "n")).tr ∧
     ((runOps 30 c2init c2ops).res = Except.ok .undef ∧
      countRunStart 0 (runOps 30 c2init c2ops).tr = 2)) := by
  refine ⟨⟨by decide, by decide⟩, rfl, ?_⟩
  exact C2_self_trigger_suppression 2 c2active (.data 0) "n" 0
    ⟨by decide, by decide⟩ rfl

/-- A state used to witness C3: a populated dependency Set for `(data 0, "n")`
and no active effect. -/
def c3sys : Sys :=
  ⟨[(0, [("n", .num 0)])], [0], [(.data 0, [("n", [0])])], none, [],
   [(0, ⟨.prog (.lit .undef), ⟨none, false⟩, []⟩)], 1,
   [], 0, [], 0, [], false, [], 0, []⟩

/-- C3: snapshot semantics of trigger.  An error-free trigger invokes exactly
the snapshot taken at its start (dependency-set mutations performed by the
invoked effects do not change this trigger's iteration), and when the
dependency Set is duplicate-free each effect is invoked exactly once. -/
theorem C3_trigger_snapshot (fuel : Nat) (s : Sys) (ck : CKey) (k : Key)
    (hwf : SysWF s) {v : Val}
    (hok : (interp (fuel + 1) s (.trig ck k)).res = Except.ok v) :
    invokesOf s.nextTrig (interp (fuel + 1) s (.trig ck k)).tr =
      triggerSnapshot s ck k ∧
    ((bucketSet s ck k).Nodup →
      (invokesOf s.nextTrig (interp (fuel + 1) s (.trig ck k)).tr).Nodup) := by
  have he := (trigInvokes fuel s ck k hwf).2 v hok
  exact ⟨he, fun hnd => he ▸ List.Nodup.filter _ hnd⟩

/-- Closed instance of C3: the trigger at `c3sys` invokes exactly `[0]`. -/
theorem C3_witness :
    SysWF c3sys ∧ (interp 5 c3sys (.trig (.data 0) "n")).res = Except.ok .undef ∧
    (invokesOf c3sys.nextTrig (interp 5 c3sys (.trig (.data 0) "n")).tr =
       triggerSnapshot c3sys (.data 0) "n" ∧
     ((bucketSet c3sys (.data 0) "n").Nodup →
       (invokesOf c3sys.nextTrig (interp 5 c3sys (.trig (.data 0) "n")).tr).Nodup)) := by
  refine ⟨⟨by decide, by decide⟩, by decide, ?_⟩
  exact @C3_trigger_snapshot 4 c3sys (.data 0) "n" ⟨by decide, by decide⟩
    Val.undef (by decide)

end VueReact


namespace VueReact

/-! ### The computed invalidation automaton: claim-level consequences -/

def countInval (c : Nat) (tr : List Ev) : Nat :=
  tr.countP (fun ev => ev = Ev.invalidateEv c)

/-- In an accepted automaton run with no completed read of `c`, at most one
invalidation occurs (none when the flag is already dirty). -/
theorem autoRun_inval_bound (c : Nat) :
    ∀ (tr : List Ev) (d d2 : Bool), Ev.compReadEv c ∉ tr →
      autoRun c d tr = some d2 →
      countInval c tr ≤ 1 ∧ (d = true → countInval c tr = 0) := by
  intro tr
  induction tr with
  | nil => intro d d2 _ _; exact ⟨by simp [countInval], fun _ => by simp [countInval]⟩
  | cons ev rest ih =>
      intro d d2 hno hrun
      have hnor : Ev.compReadEv c ∉ rest := fun h => hno (List.mem_cons_of_mem _ h)
      rw [autoRun_cons] at hrun
      by_cases hiv : ev = Ev.invalidateEv c
      · subst hiv
        have hcc : countInval c (Ev.invalidateEv c :: rest) = countInval c rest + 1 := by
          simp [countInval, List.countP_cons]
        cases d with
        | true => rw [autoStep] at hrun; simp at hrun
        | false =>
            rw [autoStep] at hrun
            simp at hrun
            obtain ⟨h1, _⟩ := ih true d2 hnor hrun
            have h0 := (ih true d2 hnor hrun).2 rfl
            refine ⟨?_, fun hx => by cases hx⟩
            rw [hcc, h0]
      · have hcc : countInval c (ev :: rest) = countInval c rest := by
          simp [countInval, List.countP_cons, hiv]
        have hq : evQuiet c ev := ⟨hiv, fun h => hno (h ▸ List.mem_cons_self _ _)⟩
        rw [autoStep_quiet hq] at hrun
        obtain ⟨h1, h2⟩ := ih d d2 hnor hrun
        exact ⟨hcc ▸ h1, fun hx => hcc ▸ h2 hx⟩

/-- The scenario for C9's closed conjunct: a computed over `a` invalidated by
two consecutive writes with no read in between. -/
def c9ops : List Op :=
  [.newComputed (.readProp 0 "a"), .creadOp 0, .incOp 0 "a", .incOp 0 "a"]

/-- C9: while a computed's dirty flag is set, its scheduler is an exact no-op
(no recomputation, no trigger, state unchanged); and in any execution, any
trace segment containing no completed read of `c` holds at most one
invalidation of `c` — so `trigger` fires on the synthetic pair at most once
between consecutive reads (concretely: two dependency writes after one read
yield a single trigger on `(comp 0, "value")`). -/
theorem C9_dirty_scheduler_noop (fuel : Nat) (s : Sys) (c : Nat) (e : EffId)
    (hwf : SysWF s) :
    (dirtyOf s c = true →
      interp (fuel + 1) s (.schedC (.computedSched c) e) =
        ⟨s, [Ev.schedEv e], Except.ok .undef⟩) ∧
    (∀ (cl : Call) (t1 t2 : List Ev), (interp fuel s cl).tr = t1 ++ t2 →
      Ev.compReadEv c ∉ t2 → countInval c t2 ≤ 1) ∧
    ((runOps 30 (initSys [(0, [("a", .num 0)])] [0]) c9ops).res = Except.ok .undef ∧
     countTrigC 0 (runOps 30 (initSys [(0, [("a", .num 0)])] [0]) c9ops).tr = 1) := by
  refine ⟨?_, ?_, by decide, by decide⟩
  · intro hd
    simp only [interp]
    cases hc : alistGet s.comps c with
    | none => rfl
    | some cr =>
        have hcd : cr.dirty = true := by
          rw [dirtyOf, hc] at hd
          exact hd
        dsimp only
        rw [if_pos hcd]
  · intro cl t1 t2 hsplit hno
    have hm := comboMaster fuel s cl hwf
    have ha := hm.dirtyAuto c
    rw [hsplit, autoRun_append] at ha
    cases h1 : autoRun c (dirtyOf s c) t1 with
    | none => rw [h1] at ha; cases ha
    | some d1 =>
        rw [h1] at ha
        simp only [Option.some_bind] at ha
        exact (autoRun_inval_bound c t2 d1 _ hno ha).1

/-- Closed instance of C9 at a dirty computed record. -/
def c9sys : Sys :=
  ⟨[(0, [("a", .num 0)])], [0], [], none, [],
   [(0, ⟨.prog (.readProp 0 "a"), ⟨some (.computedSched 0), true⟩, []⟩)], 1,
   [(0, ⟨0, .undef, true⟩)], 1, [], 0, [], false, [], 0, []⟩

theorem C9_witness :
    SysWF c9sys ∧ dirtyOf c9sys 0 = true ∧
    (interp 3 c9sys (.schedC (.computedSched 0) 0) =
      ⟨c9sys, [Ev.schedEv 0], Except.ok .undef⟩) := by
  refine ⟨⟨by decide, by decide⟩, by decide, ?_⟩
  exact (C9_dirty_scheduler_noop 2 c9sys 0 0 ⟨by decide, by decide⟩).1 (by decide)

end VueReact


namespace VueReact

/-! ### flushJob: the queue is never emptied -/

theorem prefix_drop {l1 l2 : List EffId} (h : l1 <+: l2) (k : Nat) :
    l1.drop k <+: l2.drop k := by
  obtain ⟨t, rfl⟩ := h
  by_cases hk : k ≤ l1.length
  · rw [List.drop_append_of_le_length hk]
    exact ⟨t, rfl⟩
  · rw [List.drop_eq_nil_of_le (Nat.le_of_not_le hk)]
    exact List.nil_prefix

/-- An error-free `flushJob` iteration starting at index `i` executes every
job of the final queue from index `i` on, and resets `isFlushing`. -/
theorem flushExecutesAll : ∀ (fuel : Nat) (s : Sys) (i : Nat), SysWF s →
    ∀ v, (interp fuel s (.flushIdx i)).res = Except.ok v →
      (∀ j ∈ (interp fuel s (.flushIdx i)).s.jobQueue.drop i,
        Ev.jobExecEv j ∈ (interp fuel s (.flushIdx i)).tr) ∧
      (interp fuel s (.flushIdx i)).s.isFlushing = false := by
  intro fuel
  induction fuel with
  | zero => intro s i _ v hv; exact absurd hv (fun h => Except.noConfusion h)
  | succ fuel ih =>
      intro s i hwf v hv
      simp only [interp] at hv ⊢
      cases hh : (s.jobQueue.drop i).head? with
      | none =>
          rw [hh] at hv
          dsimp only at hv ⊢
          refine ⟨?_, rfl⟩
          intro j hj
          rw [List.head?_eq_none_iff] at hh
          rw [show ({ s with isFlushing := false } : Sys).jobQueue = s.jobQueue
            from rfl, hh] at hj
          cases hj
      | some j =>
          rw [hh] at hv
          dsimp only at hv ⊢
          rcases ho : interp fuel s (.runEff j) with ⟨s2, t2, r2⟩
          rw [ho] at hv
          have hm := comboMaster fuel s (.runEff j) hwf
          rw [ho] at hm
          cases r2 with
          | error er => dsimp only at hv; exact Except.noConfusion hv
          | ok v2 =>
              dsimp only at hv ⊢
              rcases ho2 : interp fuel s2 (.flushIdx (i + 1)) with ⟨s3, t3, r3⟩
              rw [ho2] at hv
              have hm2 := comboMaster fuel s2 (.flushIdx (i + 1)) hm.wf2
              rw [ho2] at hm2
              have ih2 := ih s2 (i + 1) hm.wf2 v (by rw [ho2]; exact hv)
              
              rw [ho2] at ih2
              dsimp only at ih2
              refine ⟨?_, ih2.2⟩
              intro j' hj'
              have hlen : i < s.jobQueue.length := by
                by_contra hle
                rw [List.drop_eq_nil_of_le (Nat.le_of_not_lt hle)] at hh
                cases hh
              have hpre : s.jobQueue <+: s3.jobQueue :=
                hm.jobPre.trans hm2.jobPre
              have hlen3 : i < s3.jobQueue.length :=
                lt_of_lt_of_le hlen hpre.length_le
              rw [List.drop_eq_getElem_cons hlen3] at hj'
              have hge : s.jobQueue[i] = j := by
                rw [List.drop_eq_getElem_cons hlen, List.head?_cons] at hh
                exact Option.some.inj hh
              have hgj : s3.jobQueue[i] = j := by
                rw [← List.IsPrefix.getElem hpre hlen]
                exact hge
              rcases List.mem_cons.mp hj' with hj1 | hj2
              · rw [hj1, hgj]
                exact List.mem_cons_self _ _
              · exact List.mem_cons_of_mem _
                  (List.mem_append.mpr (Or.inr (ih2.1 j' hj2)))

/-- The stale re-execution scenario: two batch effects over distinct
properties; the first, enqueued in tick one, is executed again by tick two's
flush although its own dependency never changed again. -/
def c10init : Sys := initSys [(0, [("a", .num 0), ("b", .num 0)])] [0]

def c10ops : List Op :=
  [.registerEffect (.prog (.readProp 0 "a")) ⟨some .batch, false⟩,
   .registerEffect (.prog (.readProp 0 "b")) ⟨some .batch, false⟩,
   .incOp 0 "a", .drainOp, .incOp 0 "b", .drainOp]

/-- C10: `flushJob` never removes jobs.  The queue before a flush is a prefix
of the queue after it; an error-free flush executes every job of the queue
(at every index) and only resets `isFlushing`; consequently a job enqueued in
an earlier tick is executed again by every later flush (concretely, the
effect enqueued in tick one runs twice although `a` changed only once). -/
theorem C10_flush_never_removes (fuel : Nat) (s : Sys) (hwf : SysWF s) :
    (s.jobQueue <+: (interp fuel s (.flushIdx 0)).s.jobQueue) ∧
    (∀ v, (interp fuel s (.flushIdx 0)).res = Except.ok v →
      (∀ j ∈ (interp fuel s (.flushIdx 0)).s.jobQueue,
         Ev.jobExecEv j ∈ (interp fuel s (.flushIdx 0)).tr) ∧
      (interp fuel s (.flushIdx 0)).s.isFlushing = false) ∧
    ((runOps 30 c10init c10ops).res = Except.ok .undef ∧
     countJobExec 0 (runOps 30 c10init c10ops).tr = 2 ∧
     countJobExec 1 (runOps 30 c10init c10ops).tr = 1) := by
  refine ⟨(comboMaster fuel s (.flushIdx 0) hwf).jobPre, ?_, by decide, by decide,
    by decide⟩
  intro v hv
  have h := flushExecutesAll fuel s 0 hwf v hv
  exact ⟨fun j hj => h.1 j (by simpa using hj), h.2⟩

/-- Closed instance of C10 at a one-job queue. -/
def c10sys : Sys :=
  ⟨[], [], [], none, [], [(0, ⟨.prog (.lit .undef), ⟨none, false⟩, []⟩)], 1,
   [], 0, [], 0, [0], true, [], 0, []⟩

theorem C10_witness :
    SysWF c10sys ∧
    (c10sys.jobQueue <+: (interp 4 c10sys (.flushIdx 0)).s.jobQueue ∧
     (∀ v, (interp 4 c10sys (.flushIdx 0)).res = Except.ok v →
       (∀ j ∈ (interp 4 c10sys (.flushIdx 0)).s.jobQueue,
          Ev.jobExecEv j ∈ (interp 4 c10sys (.flushIdx 0)).tr) ∧
       (interp 4 c10sys (.flushIdx 0)).s.isFlushing = false) ∧
     ((runOps 30 c10init c10ops).res = Except.ok .undef ∧
      countJobExec 0 (runOps 30 c10init c10ops).tr = 2 ∧
      countJobExec 1 (runOps 30 c10init c10ops).tr = 1)) := by
  refine ⟨⟨by decide, by decide⟩, ?_⟩
  exact C10_flush_never_removes 4 c10sys ⟨by decide, by decide⟩

end VueReact


namespace VueReact

/-! ### The watch two-writes scenario (C6) and the throwing effect (C7) -/

def c6store : List (Target × List (Key × Val)) :=
  [(0, [("foo", .num 1), ("bar", .num 2)])]

def c6syncOps : List Op :=
  [.newWatch (.container 0) ⟨false, false⟩, .incOp 0 "foo", .incOp 0 "bar"]

def c6preOps : List Op :=
  [.newWatch (.container 0) ⟨false, true⟩, .incOp 0 "foo", .incOp 0 "bar"]

def c6postOps : List Op := c6preOps ++ [.drainOp]

def c6sync : Out := runOps 40 (initSys c6store [0]) c6syncOps

def c6pre : Out := runOps 40 (initSys c6store [0]) c6preOps

def c6post : Out := runOps 40 (initSys c6store [0]) c6postOps

/-- The C6 scenario as claimed for `flush: 'post'` is false: after both
writes settle and the microtasks drain, the callback has been invoked twice,
not once — the watch scheduler defers one job per trigger and nothing
deduplicates them. -/
theorem C6_counterexample : ¬countCbW 0 c6post.tr = 1 := by decide

/-- C6 (amended): with no flush option the callback runs exactly twice,
synchronously, in the order of the triggering writes; with `flush: 'post'`
the callback still runs exactly twice — both invocations are deferred past
both mutations (one microtask per trigger), they are not batched into one. -/
theorem C6_watch_two_writes :
    (c6sync.res = Except.ok .undef ∧
     countCbW 0 c6sync.tr = 2 ∧
     [Ev.trigEv (.data 0) "foo", Ev.cbCall 0 (.ref 0) (.ref 0),
      Ev.trigEv (.data 0) "bar", Ev.cbCall 0 (.ref 0) (.ref 0)].Sublist c6sync.tr) ∧
    (c6post.res = Except.ok .undef ∧
     countCbW 0 c6pre.tr = 0 ∧
     countCbW 0 c6post.tr = 2 ∧
     [Ev.trigEv (.data 0) "foo", Ev.trigEv (.data 0) "bar",
      Ev.cbCall 0 (.ref 0) (.ref 0), Ev.cbCall 0 (.ref 0) (.ref 0)].Sublist c6post.tr) := by
  refine ⟨⟨by decide, by decide, by decide⟩, by decide, by decide, by decide, by decide⟩

def c7ops : List Op := [.registerEffect (.prog .throwErr) ⟨none, false⟩]

def c7out : Out := runOps 20 (initSys [] []) c7ops

/-- C7: the claim demands that a throwing wrapped function still pop the
effect stack and restore the previous active effect.  The runner has no
`try`/`finally`, so the throw skips the pop: the exception propagates, but
the throwing effect is left on the stack and stays the active effect. -/
theorem C7_throw_leaves_stale_active :
    c7out.res = Except.error .thrown ∧
    c7out.s.effectStack = [0] ∧
    c7out.s.activeEffect = some 0 := by
  refine ⟨by decide, by decide, by decide⟩

end VueReact


namespace VueReact

/-! ### Traversal is read-only (C8) -/

/-- Events that only a proxied read can produce. -/
def readEv : Ev → Bool
  | .trackCall _ _ => true
  | .trackEv _ _ _ => true
  | .getEv _ _ _ => true
  | _ => false

theorem track_readEv (s : Sys) (ck : CKey) (k : Key) :
    ∀ ev ∈ (track s ck k).2, readEv ev = true := by
  unfold track
  cases s.activeEffect with
  | none =>
      intro ev hev
      simp at hev
      subst hev
      rfl
  | some e =>
      intro ev hev
      simp at hev
      rcases hev with h | h <;> subst h <;> rfl

theorem readEv_noCb {tr : List Ev} (h : ∀ ev ∈ tr, readEv ev = true) (w : Nat) :
    countCbW w tr = 0 := by
  rw [countCbW, List.countP_eq_zero]
  intro ev hev
  cases ev <;>
    first
      | exact fun hx => Bool.noConfusion hx
      | exact absurd (h _ hev) (fun hx => Bool.noConfusion hx)

theorem readEv_noRunStart {tr : List Ev} (h : ∀ ev ∈ tr, readEv ev = true)
    (x : EffId) : countRunStart x tr = 0 := by
  rw [countRunStart, List.countP_eq_zero]
  intro ev hev
  cases ev <;>
    first
      | exact fun hx => Bool.noConfusion hx
      | exact absurd (h _ hev) (fun hx => Bool.noConfusion hx)

/-- `traverse` only reads: its trace consists of tracking and get events, it
preserves the watch registry, and (through `travKeys`) it returns the object
reference it was given. -/
theorem travFacts : ∀ (fuel : Nat) (s : Sys),
    (∀ v : Val,
      (∀ ev ∈ (interp fuel s (.trav v)).tr, readEv ev = true) ∧
      (interp fuel s (.trav v)).s.watches = s.watches ∧
      (∀ t : Target, v = .ref t → t ∉ s.seen →
        ∀ v2, (interp fuel s (.trav v)).res = Except.ok v2 → v2 = .ref t)) ∧
    (∀ (t : Target) (kvs : List (Key × Val)),
      (∀ ev ∈ (interp fuel s (.travKeys t kvs)).tr, readEv ev = true) ∧
      (interp fuel s (.travKeys t kvs)).s.watches = s.watches ∧
      ∀ v2, (interp fuel s (.travKeys t kvs)).res = Except.ok v2 → v2 = .ref t) := by
  intro fuel
  induction fuel with
  | zero =>
      intro s
      constructor
      · intro v
        exact ⟨fun ev hev => absurd hev (List.not_mem_nil ev), rfl,
          fun t ht hs v2 hv => Except.noConfusion hv⟩
      · intro t kvs
        exact ⟨fun ev hev => absurd hev (List.not_mem_nil ev), rfl,
          fun v2 hv => Except.noConfusion hv⟩
  | succ fuel ih =>
      intro s
      constructor
      · intro v
        cases v with
        | ref t =>
            simp only [interp]
            by_cases hseen : t ∈ s.seen
            · rw [if_pos hseen]
              exact ⟨fun ev hev => absurd hev (List.not_mem_nil ev), rfl,
                fun t2 ht hs => absurd (Val.ref.inj ht ▸ hseen) hs⟩
            · rw [if_neg hseen]
              refine ⟨((ih _).2 _ _).1, ((ih _).2 _ _).2.1, ?_⟩
              intro t2 ht _ v2 hv
              exact Val.ref.inj ht ▸ ((ih _).2 _ _).2.2 v2 hv
        | undef =>
            exact ⟨fun ev hev => absurd hev (List.not_mem_nil ev), rfl,
              fun t ht => Val.noConfusion ht⟩
        | num n =>
            exact ⟨fun ev hev => absurd hev (List.not_mem_nil ev), rfl,
              fun t ht => Val.noConfusion ht⟩
        | boolV b =>
            exact ⟨fun ev hev => absurd hev (List.not_mem_nil ev), rfl,
              fun t ht => Val.noConfusion ht⟩
        | strV st =>
            exact ⟨fun ev hev => absurd hev (List.not_mem_nil ev), rfl,
              fun t ht => Val.noConfusion ht⟩
      · intro t kvs
        cases kvs with
        | nil =>
            refine ⟨fun ev hev => absurd hev (List.not_mem_nil ev), rfl, ?_⟩
            intro v2 hv
            exact (Except.ok.inj hv).symm
        | cons kv rest =>
            obtain ⟨k, v0⟩ := kv
            simp only [interp]
            by_cases hp : t ∈ s.proxies
            · rw [if_pos hp]
              dsimp only
              rcases ho : interp fuel (track s (.data t) k).1
                  (.trav (getStoreVal (track s (.data t) k).1 t k)) with ⟨s2, t2, r2⟩
              have h1 := (ih ((track s (.data t) k).1)).1
                (getStoreVal (track s (.data t) k).1 t k)
              rw [ho] at h1
              cases r2 with
              | error er =>
                  dsimp only
                  refine ⟨?_, h1.2.1.trans (track_proj s (.data t) k).2.2.2.1,
                    fun v2 hv => Except.noConfusion hv⟩
                  intro ev hev
                  rcases List.mem_append.mp hev with h | h
                  · rcases List.mem_append.mp h with h2 | h2
                    · exact track_readEv s (.data t) k ev h2
                    · simp at h2
                      subst h2
                      rfl
                  · exact h1.1 ev h
              | ok v1 =>
                  dsimp only
                  rcases ho2 : interp fuel s2 (.travKeys t rest) with ⟨s3, t3, r3⟩
                  have h2 := (ih s2).2 t rest
                  rw [ho2] at h2
                  refine ⟨?_,
                    h2.2.1.trans (h1.2.1.trans (track_proj s (.data t) k).2.2.2.1),
                    h2.2.2⟩
                  intro ev hev
                  rcases List.mem_append.mp hev with h | h
                  · rcases List.mem_append.mp h with h2m | h2m
                    · rcases List.mem_append.mp h2m with h3 | h3
                      · exact track_readEv s (.data t) k ev h3
                      · simp at h3
                        subst h3
                        rfl
                    · exact h1.1 ev h2m
                  · exact h2.1 ev h
            · rw [if_neg hp]
              dsimp only
              rcases ho : interp fuel s (.trav (getStoreVal s t k)) with ⟨s2, t2, r2⟩
              have h1 := (ih s).1 (getStoreVal s t k)
              rw [ho] at h1
              cases r2 with
              | error er =>
                  dsimp only
                  refine ⟨?_, h1.2.1, fun v2 hv => Except.noConfusion hv⟩
                  intro ev hev
                  rcases List.mem_append.mp hev with h | h
                  · exact absurd h (List.not_mem_nil ev)
                  · exact h1.1 ev h
              | ok v1 =>
                  dsimp only
                  rcases ho2 : interp fuel s2 (.travKeys t rest) with ⟨s3, t3, r3⟩
                  have h2 := (ih s2).2 t rest
                  rw [ho2] at h2
                  refine ⟨?_, h2.2.1.trans h1.2.1, h2.2.2⟩
                  intro ev hev
                  rcases List.mem_append.mp hev with h | h
                  · rcases List.mem_append.mp h with h3 | h3
                    · exact absurd h3 (List.not_mem_nil ev)
                    · exact h1.1 ev h3
                  · exact h2.1 ev h

end VueReact


namespace VueReact

theorem alistGet_append_fresh {α β : Type} [DecidableEq α]
    {l : List (α × β)} {a : α} (b : β) (h : alistGet l a = none) :
    alistGet (l ++ [(a, b)]) a = some b := by
  induction l with
  | nil => simp [alistGet]
  | cons hd tl ih =>
      obtain ⟨x, c⟩ := hd
      by_cases hx : x = a
      · rw [alistGet, if_pos hx] at h
        cases h
      · rw [List.cons_append, alistGet, if_neg hx]
        rw [alistGet, if_neg hx] at h
        exact ih h

/-- Running an effect whose wrapped function is `() => traverse(source)`: the
watch registry is untouched, no callback fires inside the run, the effect is
started exactly once, and an error-free run returns the container
reference. -/
theorem runEffTravWatch (fuel : Nat) (s : Sys) (e : EffId) (t : Target)
    {r : EffectRec} (hr : alistGet s.effects e = some r)
    (hfn : r.fn = .traverseSrc t) :
    (interp (fuel + 1) s (.runEff e)).s.watches = s.watches ∧
    (∀ w, countCbW w (interp (fuel + 1) s (.runEff e)).tr = 0) ∧
    countRunStart e (interp (fuel + 1) s (.runEff e)).tr = 1 ∧
    (∀ v, (interp (fuel + 1) s (.runEff e)).res = Except.ok v → v = .ref t) := by
  simp only [interp]
  rw [hr]
  dsimp only
  rw [hfn]
  dsimp only
  rcases ho : interp fuel (pushEffT s e) (.trav (.ref t)) with ⟨s2, t2, r2⟩
  have htf := (travFacts fuel (pushEffT s e)).1 (.ref t)
  rw [ho] at htf
  have hwp : (pushEffT s e).watches = s.watches := (cleanup_proj s e).2.2.2.1
  cases r2 with
  | error er =>
      dsimp only
      refine ⟨htf.2.1.trans hwp, ?_, ?_, fun v hv => Except.noConfusion hv⟩
      · intro w
        simpa [countCbW, List.countP_cons] using readEv_noCb htf.1 w
      · simpa [countRunStart, List.countP_cons] using readEv_noRunStart htf.1 e
  | ok v2 =>
      dsimp only
      refine ⟨htf.2.1.trans hwp, ?_, ?_, ?_⟩
      · intro w
        simpa [countCbW, List.countP_cons, List.countP_append] using
          readEv_noCb htf.1 w
      · simpa [countRunStart, List.countP_cons, List.countP_append] using
          readEv_noRunStart htf.1 e
      · intro v hv
        have hv2 : v2 = v := Except.ok.inj hv
        subst hv2
        exact htf.2.2 t rfl (List.not_mem_nil t) v2 rfl

end VueReact


namespace VueReact

/-- The module state right after `watch(container, cb, options)` registers its
lazy effect and watch record. -/
def c8reg (s : Sys) (t : Target) (wo : WatchOpts) : Sys :=
  { s with nextWatch := s.nextWatch + 1, nextId := s.nextId + 1,
           effects := s.effects ++
             [(s.nextId, ⟨.traverseSrc t,
                          ⟨some (.watchSched s.nextWatch), true⟩, []⟩)],
           watches := s.watches ++
             [(s.nextWatch, ⟨s.nextId, wo.flushPost, .undef⟩)] }

theorem watchJobC_eq (f : Nat) (S : Sys) (w : Nat) :
    interp (f + 1) S (.watchJobC w) =
      (match alistGet S.watches w with
       | none => ⟨S, [], .error .thrown⟩
       | some _ =>
           let o := interp f S (.runEff (match alistGet S.watches w with
                                         | some wr => wr.effId
                                         | none => 0))
           match o.res with
           | .error er => ⟨o.s, o.tr, .error er⟩
           | .ok nv =>
               match alistGet o.s.watches w with
               | none => ⟨o.s, o.tr, .error .thrown⟩
               | some wr2 =>
                   ⟨{ o.s with
                      watches := alistSet o.s.watches w { wr2 with oldValue := nv } },
                    o.tr ++ [.cbCall w nv wr2.oldValue], .ok .undef⟩) := rfl

theorem newWatch_imm_eq (f : Nat) (s : Sys) (t : Target) (wo : WatchOpts)
    (himm : wo.immediate = true) :
    runOp f s (.newWatch (.container t) wo) =
      interp f (c8reg s t wo) (.watchJobC s.nextWatch) := by
  simp only [runOp]
  rw [if_pos himm]
  rfl

theorem newWatch_nonimm_eq (f : Nat) (s : Sys) (t : Target) (wo : WatchOpts)
    (himm : wo.immediate = false) :
    runOp f s (.newWatch (.container t) wo) =
      (let o := interp f (c8reg s t wo) (.runEff s.nextId)
       match o.res with
       | .error er => ⟨o.s, o.tr, .error er⟩
       | .ok v =>
           match alistGet o.s.watches s.nextWatch with
           | none => ⟨o.s, o.tr, .ok .undef⟩
           | some wr =>
               ⟨{ o.s with
                    watches := alistSet o.s.watches s.nextWatch { wr with oldValue := v } },
                o.tr, .ok .undef⟩) := by
  simp only [runOp]
  rw [if_neg (by simp [himm])]
  rfl

/-- C8: the initial run of a `watch` registration.  With `immediate: true`
the job runs exactly once at registration and the callback fires exactly once
with `oldValue` undefined and `newValue` the getter's result; without
`immediate`, the effect is still run exactly once, the callback does not
fire, and the result is stored as the watch record's `oldValue`. -/
theorem C8_watch_initial_run (fuel : Nat) (s : Sys) (t : Target) (wo : WatchOpts)
    (hfw : alistGet s.watches s.nextWatch = none)
    (hfe : alistGet s.effects s.nextId = none) :
    (wo.immediate = true →
      ∀ v, (runOp (fuel + 2) s (.newWatch (.container t) wo)).res = Except.ok v →
        countCbW s.nextWatch (runOp (fuel + 2) s (.newWatch (.container t) wo)).tr = 1 ∧
        countRunStart s.nextId
          (runOp (fuel + 2) s (.newWatch (.container t) wo)).tr = 1 ∧
        Ev.cbCall s.nextWatch (.ref t) .undef ∈
          (runOp (fuel + 2) s (.newWatch (.container t) wo)).tr) ∧
    (wo.immediate = false →
      ∀ v, (runOp (fuel + 2) s (.newWatch (.container t) wo)).res = Except.ok v →
        countCbW s.nextWatch (runOp (fuel + 2) s (.newWatch (.container t) wo)).tr = 0 ∧
        countRunStart s.nextId
          (runOp (fuel + 2) s (.newWatch (.container t) wo)).tr = 1 ∧
        alistGet (runOp (fuel + 2) s (.newWatch (.container t) wo)).s.watches
          s.nextWatch = some ⟨s.nextId, wo.flushPost, .ref t⟩) := by
  have hw1 : alistGet (c8reg s t wo).watches s.nextWatch =
      some ⟨s.nextId, wo.flushPost, .undef⟩ := by
    show alistGet (s.watches ++ [(s.nextWatch, ⟨s.nextId, wo.flushPost, .undef⟩)])
      s.nextWatch = some ⟨s.nextId, wo.flushPost, .undef⟩
    exact alistGet_append_fresh _ hfw
  have he1 : alistGet (c8reg s t wo).effects s.nextId =
      some ⟨.traverseSrc t, ⟨some (.watchSched s.nextWatch), true⟩, []⟩ := by
    show alistGet (s.effects ++
        [(s.nextId, ⟨.traverseSrc t, ⟨some (.watchSched s.nextWatch), true⟩, []⟩)])
      s.nextId = some ⟨.traverseSrc t, ⟨some (.watchSched s.nextWatch), true⟩, []⟩
    exact alistGet_append_fresh _ hfe
  constructor
  · intro himm v hok
    rw [newWatch_imm_eq (fuel + 2) s t wo himm] at hok ⊢
    rw [watchJobC_eq (fuel + 1) (c8reg s t wo) s.nextWatch] at hok ⊢
    rw [hw1] at hok ⊢
    dsimp only at hok ⊢
    have hrun := runEffTravWatch fuel (c8reg s t wo) s.nextId t he1 rfl
    rcases hor : interp (fuel + 1) (c8reg s t wo) (.runEff s.nextId)
      with ⟨s2, t2, r2⟩
    rw [hor] at hok hrun
    dsimp only at hok hrun
    cases r2 with
    | error er => exact absurd hok (fun h => Except.noConfusion h)
    | ok nv =>
        have hnv : nv = .ref t := hrun.2.2.2 nv rfl
        subst hnv
        have hw2 : alistGet s2.watches s.nextWatch =
            some ⟨s.nextId, wo.flushPost, .undef⟩ := by
          rw [hrun.1]
          exact hw1
        rw [hw2] at hok ⊢
        dsimp only at hok ⊢
        refine ⟨?_, ?_, ?_⟩
        · simpa [countCbW, List.countP_append, List.countP_cons] using
            hrun.2.1 s.nextWatch
        · simpa [countRunStart, List.countP_append, List.countP_cons] using
            hrun.2.2.1
        · simp
  · intro himm v hok
    rw [newWatch_nonimm_eq (fuel + 2) s t wo himm] at hok ⊢
    dsimp only at hok ⊢
    have hrun := runEffTravWatch (fuel + 1) (c8reg s t wo) s.nextId t he1 rfl
    rcases hor : interp (fuel + 2) (c8reg s t wo) (.runEff s.nextId)
      with ⟨s2, t2, r2⟩
    rw [hor] at hok hrun
    dsimp only at hok hrun
    cases r2 with
    | error er => exact absurd hok (fun h => Except.noConfusion h)
    | ok nv =>
        have hnv : nv = .ref t := hrun.2.2.2 nv rfl
        subst hnv
        have hw2 : alistGet s2.watches s.nextWatch =
            some ⟨s.nextId, wo.flushPost, .undef⟩ := by
          rw [hrun.1]
          exact hw1
        rw [hw2] at hok ⊢
        dsimp only at hok ⊢
        refine ⟨?_, hrun.2.2.1, ?_⟩
        · exact hrun.2.1 s.nextWatch
        · rw [alistGet_alistSet]
          simp

/-- Closed instance of C8: an immediate watch over a one-property container. -/
def c8sys : Sys := initSys [(0, [("x", .num 1)])] [0]

theorem C8_witness :
    alistGet c8sys.watches c8sys.nextWatch = none ∧
    alistGet c8sys.effects c8sys.nextId = none ∧
    (runOp 9 c8sys (.newWatch (.container 0) ⟨true, false⟩)).res =
      Except.ok .undef ∧
    (countCbW c8sys.nextWatch
       (runOp 9 c8sys (.newWatch (.container 0) ⟨true, false⟩)).tr = 1 ∧
     countRunStart c8sys.nextId
       (runOp 9 c8sys (.newWatch (.container 0) ⟨true, false⟩)).tr = 1 ∧
     Ev.cbCall c8sys.nextWatch (.ref 0) .undef ∈
       (runOp 9 c8sys (.newWatch (.container 0) ⟨true, false⟩)).tr) := by
  refine ⟨by decide, by decide, by decide, ?_⟩
  exact (C8_watch_initial_run 7 c8sys 0 ⟨true, false⟩ (by decide) (by decide)).1
    rfl .undef (by decide)

end VueReact


namespace VueReact

/-! ### Pure getters (C4) -/

/-- Expressions that only read: the fragment used by `computed` getters. -/
def pureE : PExp → Bool
  | .lit _ => true
  | .readProp _ _ => true
  | .add a b => pureE a && pureE b
  | _ => false

/-- Interpreter fuel needed to evaluate an expression. -/
def sizeE : PExp → Nat
  | .add a b => max (sizeE a) (sizeE b) + 1
  | _ => 1

/-- The mathematical value of a pure expression over a store. -/
def evalPure (st : List (Target × List (Key × Val))) : PExp → Val
  | .lit v => v
  | .readProp t k =>
      match alistGet st t with
      | none => .undef
      | some kvs => (alistGet kvs k).getD .undef
  | .add a b => valAdd (evalPure st a) (evalPure st b)
  | _ => .undef

theorem getStoreVal_congr {s1 s2 : Sys} (h : s1.store = s2.store)
    (t : Target) (k : Key) : getStoreVal s1 t k = getStoreVal s2 t k := by
  unfold getStoreVal
  rw [h]

theorem trackCall_mem (s : Sys) (ck : CKey) (k : Key) :
    Ev.trackCall ck k ∈ (track s ck k).2 := by
  unfold track
  cases s.activeEffect <;> simp

/-- Evaluating a pure expression with enough fuel returns its mathematical
value and leaves the store unchanged. -/
theorem pureEval : ∀ (p : PExp), pureE p = true → ∀ (fuel : Nat),
    sizeE p ≤ fuel → ∀ (s : Sys),
    (interp fuel s (.evalE p)).res = Except.ok (evalPure s.store p) ∧
    (interp fuel s (.evalE p)).s.store = s.store := by
  intro p
  induction p with
  | lit v =>
      intro _ fuel hsz s
      cases fuel with
      | zero => exact absurd hsz (by simp [sizeE])
      | succ f => exact ⟨rfl, rfl⟩
  | readProp t k =>
      intro _ fuel hsz s
      cases fuel with
      | zero => exact absurd hsz (by simp [sizeE])
      | succ f =>
          have hst : (track s (.data t) k).1.store = s.store :=
            (track_proj s (.data t) k).2.2.2.2.2.2.2.2.1
          constructor
          · show Except.ok (getStoreVal (track s (.data t) k).1 t k) =
              Except.ok (evalPure s.store (.readProp t k))
            rw [getStoreVal_congr hst]
            rfl
          · exact hst
  | add a b iha ihb =>
      intro hp fuel hsz s
      rw [pureE, Bool.and_eq_true] at hp
      cases fuel with
      | zero => exact absurd hsz (by simp [sizeE])
      | succ f =>
          have hsa : sizeE a ≤ f := by
            have := hsz
            rw [sizeE] at this
            omega
          have hsb : sizeE b ≤ f := by
            have := hsz
            rw [sizeE] at this
            omega
          simp only [interp]
          rcases ho : interp f s (.evalE a) with ⟨sa, ta, ra⟩
          have ha := iha hp.1 f hsa s
          rw [ho] at ha
          dsimp only at ha
          rw [ha.1]
          dsimp only
          rcases ho2 : interp f sa (.evalE b) with ⟨sb, tb, rb⟩
          have hb := ihb hp.2 f hsb sa
          rw [ho2] at hb
          dsimp only at hb
          rw [hb.1]
          dsimp only
          constructor
          · rw [ha.2]
            rfl
          · rw [hb.2, ha.2]
  | writeProp t k e ihe => intro hp; exact absurd hp (by simp [pureE])
  | seq a b iha ihb => intro hp; exact absurd hp (by simp [pureE])
  | cond c th el ihc iht ihe => intro hp; exact absurd hp (by simp [pureE])
  | throwErr => intro hp; exact absurd hp (by simp [pureE])
  | readComputed c => intro hp; exact absurd hp (by simp [pureE])

end VueReact


namespace VueReact

/-- The C4 end-to-end scenario: a computed over `a + b`, read twice, then a
dependency write, then read again. -/
def c4init : Sys := initSys [(0, [("a", .num 1), ("b", .num 2)])] [0]

def c4ops : List Op :=
  [.newComputed (.add (.readProp 0 "a") (.readProp 0 "b")),
   .creadOp 0, .creadOp 0, .writeOp 0 "a" (.num 5), .creadOp 0]

/-- C4: reading `computed(getter).value`.  A clean read returns the cache,
starts no effect, and tracks the synthetic pair; a dirty read with a pure
getter runs the inner effect, returns the getter's current value, caches it
with the dirty flag cleared, and tracks the synthetic pair; concretely, of
three reads around one dependency write only the first and the last invoke
the getter, and the last returns the updated sum. -/
theorem C4_computed_read (fuel : Nat) (s : Sys) (c : Nat) (cr : CompRec)
    (hc : alistGet s.comps c = some cr) :
    (cr.dirty = false →
      interp (fuel + 1) s (.compRead c) =
        ⟨(track s (.comp c) "value").1,
         (track s (.comp c) "value").2 ++ [Ev.compReadEv c], Except.ok cr.cache⟩ ∧
      (∀ x, countRunStart x
        ((track s (.comp c) "value").2 ++ [Ev.compReadEv c]) = 0) ∧
      Ev.trackCall (.comp c) "value" ∈ (track s (.comp c) "value").2) ∧
    (∀ (r : EffectRec) (g : PExp), cr.dirty = true →
      alistGet s.effects cr.effId = some r → r.fn = .prog g → pureE g = true →
      sizeE g + 1 ≤ fuel →
      (interp (fuel + 1) s (.compRead c)).res =
        Except.ok (evalPure s.store g) ∧
      alistGet (interp (fuel + 1) s (.compRead c)).s.comps c =
        some ⟨cr.effId, evalPure s.store g, false⟩ ∧
      Ev.trackCall (.comp c) "value" ∈ (interp (fuel + 1) s (.compRead c)).tr) ∧
    ((runOps 30 c4init c4ops).res = Except.ok .undef ∧
     countRunStart 0 (runOps 30 c4init c4ops).tr = 2 ∧
     alistGet (runOps 30 c4init c4ops).s.comps 0 = some ⟨0, .num 7, false⟩) := by
  refine ⟨?_, ?_, by decide, by decide, by decide⟩
  · intro hdt
    have heq : interp (fuel + 1) s (.compRead c) =
        ⟨(track s (.comp c) "value").1,
         (track s (.comp c) "value").2 ++ [Ev.compReadEv c], Except.ok cr.cache⟩ := by
      simp only [interp]
      rw [hc]
      dsimp only
      rw [if_neg (by rw [hdt]; exact Bool.false_ne_true)]
    refine ⟨heq, ?_, trackCall_mem s (.comp c) "value"⟩
    intro x
    simpa [countRunStart, List.countP_append, List.countP_cons] using
      readEv_noRunStart (track_readEv s (.comp c) "value") x
  · intro r g hdt hr hfn hpure hsz
    cases fuel with
    | zero => exact absurd hsz (by omega)
    | succ f =>
        simp only [interp]
        rw [hc]
        dsimp only
        rw [if_pos hdt, hr]
        dsimp only
        rw [hfn]
        dsimp only
        rcases ho : interp f (pushEff s cr.effId) (.evalE g) with ⟨s2, t2, r2⟩
        have hpe := pureEval g hpure f (by omega) (pushEff s cr.effId)
        rw [ho] at hpe
        dsimp only at hpe
        have hst : (pushEff s cr.effId).store = s.store :=
          (cleanup_proj s cr.effId).2.2.2.2.2.2.2.2.1
        rw [hst] at hpe
        rw [hpe.1]
        dsimp only
        refine ⟨rfl, ?_, ?_⟩
        · rw [(track_proj _ (.comp c) "value").2.2.1]
          show alistGet (alistSet s2.comps c
              { cr with cache := evalPure s.store g, dirty := false }) c =
            some ⟨cr.effId, evalPure s.store g, false⟩
          rw [alistGet_alistSet]
          simp
        · refine List.mem_append.mpr (Or.inl (List.mem_append.mpr (Or.inr ?_)))
          exact trackCall_mem _ (.comp c) "value"

end VueReact


namespace VueReact

/-- A state with a clean cached computed, used to witness C4. -/
def c4sys : Sys :=
  ⟨[(0, [("a", .num 1), ("b", .num 2)])], [0], [], none, [],
   [(0, ⟨.prog (.add (.readProp 0 "a") (.readProp 0 "b")),
         ⟨some (.computedSched 0), true⟩, []⟩)], 1,
   [(0, ⟨0, .num 3, false⟩)], 1, [], 0, [], false, [], 0, []⟩

theorem C4_witness :
    alistGet c4sys.comps 0 = some ⟨0, .num 3, false⟩ ∧
    (interp 5 c4sys (.compRead 0) =
      ⟨(track c4sys (.comp 0) "value").1,
       (track c4sys (.comp 0) "value").2 ++ [Ev.compReadEv 0],
       Except.ok (.num 3)⟩ ∧
     (∀ x, countRunStart x
       ((track c4sys (.comp 0) "value").2 ++ [Ev.compReadEv 0]) = 0) ∧
     Ev.trackCall (.comp 0) "value" ∈ (track c4sys (.comp 0) "value").2) :=
  ⟨by decide, (C4_computed_read 4 c4sys 0 ⟨0, .num 3, false⟩ (by decide)).1 rfl⟩

/-! ### The batching scheduler settles in one flush (C5) -/

def c5init : Sys := initSys [(0, [("n", .num 0)])] [0]

def c5regOp : Op := .registerEffect (.prog (.readProp 0 "n")) ⟨some .batch, false⟩

def c5ops (n : Nat) : List Op :=
  c5regOp :: (List.replicate n (.incOp 0 "n") ++ [.drainOp])

/-- The module state after registering the batch effect. -/
def c5regS : Sys :=
  ⟨[(0, [("n", .num 0)])], [0], [(.data 0, [("n", [0])])], none, [],
   [(0, ⟨.prog (.readProp 0 "n"), ⟨some .batch, false⟩, [(.data 0, "n")]⟩)], 1,
   [], 0, [], 0, [], false, [], 0, []⟩

def c5regTr : List Ev :=
  [.runStart 0, .trackCall (.data 0) "n", .trackEv 0 (.data 0) "n",
   .getEv 0 "n" (.num 0), .runEnd 0]

/-- The module state after the batch effect's registration and `k ≥ 1`
increments of `n` within the tick: the job is queued once, one flush
microtask is pending, and the store holds the latest value. -/
def c5mid (k : Nat) : Sys :=
  ⟨[(0, [("n", .num k)])], [0], [(.data 0, [("n", [0])])], none, [],
   [(0, ⟨.prog (.readProp 0 "n"), ⟨some .batch, false⟩, [(.data 0, "n")]⟩)], 1,
   [], 0, [], 0, [0], true, [.flushTask], k, []⟩

def c5incTr (k : Nat) : List Ev :=
  [.trackCall (.data 0) "n", .getEv 0 "n" (.num k), .trigEv (.data 0) "n",
   .invokeEv k 0, .schedEv 0]

/-- The state after the tick's microtask drain: the flush ran, `isFlushing`
is reset, and the job queue still holds the job. -/
def c5fin (k : Nat) : Sys :=
  ⟨[(0, [("n", .num k)])], [0], [(.data 0, [("n", [0])])], none, [],
   [(0, ⟨.prog (.readProp 0 "n"), ⟨some .batch, false⟩, [(.data 0, "n")]⟩)], 1,
   [], 0, [], 0, [0], false, [], k, []⟩

def c5drainTr (k : Nat) : List Ev :=
  [.jobExecEv 0, .runStart 0, .trackCall (.data 0) "n",
   .trackEv 0 (.data 0) "n", .getEv 0 "n" (.num k), .runEnd 0]

theorem c5regStep : runOp 30 c5init c5regOp = ⟨c5regS, c5regTr, .ok (.num 0)⟩ := rfl

theorem c5firstInc :
    runOp 30 c5regS (.incOp 0 "n") = ⟨c5mid 1, c5incTr 0, .ok (.num 1)⟩ := rfl

/-- A further increment within the tick only bumps the value and emits a
scheduler call: the queue, flag and pending microtask are unchanged. -/
theorem c5step (k : Nat) :
    runOp 30 (c5mid k) (.incOp 0 "n") =
      ⟨c5mid (k + 1), c5incTr k, .ok (.num (k + 1))⟩ := rfl

/-- Draining the tick's microtasks runs the flush: the job executes once,
reading the final value. -/
theorem c5drain (k : Nat) :
    runOp 30 (c5mid k) .drainOp = ⟨c5fin k, c5drainTr k, .ok .undef⟩ := rfl

theorem runOps_cons_ok {f : Nat} {s so : Sys} {op : Op} {tro : List Ev} {vo : Val}
    (h : runOp f s op = ⟨so, tro, .ok vo⟩) (l : List Op) :
    runOps f s (op :: l) =
      ⟨(runOps f so l).s, tro ++ (runOps f so l).tr, (runOps f so l).res⟩ := by
  simp only [runOps]
  rw [h]

/-- Any number of further increments followed by the drain yield exactly one
job execution observing the final value. -/
theorem c5tail : ∀ (m k : Nat),
    (runOps 30 (c5mid k) (List.replicate m (.incOp 0 "n") ++ [.drainOp])).s =
      c5fin (k + m) ∧
    countJobExec 0
      (runOps 30 (c5mid k) (List.replicate m (.incOp 0 "n") ++ [.drainOp])).tr = 1 ∧
    countRunStart 0
      (runOps 30 (c5mid k) (List.replicate m (.incOp 0 "n") ++ [.drainOp])).tr = 1 ∧
    (runOps 30 (c5mid k) (List.replicate m (.incOp 0 "n") ++ [.drainOp])).res =
      Except.ok .undef ∧
    Ev.getEv 0 "n" (.num (k + m)) ∈
      (runOps 30 (c5mid k) (List.replicate m (.incOp 0 "n") ++ [.drainOp])).tr := by
  intro m
  induction m with
  | zero =>
      intro k
      rw [show List.replicate 0 (Op.incOp 0 "n") ++ [Op.drainOp] = [Op.drainOp]
        from rfl]
      rw [runOps_cons_ok (c5drain k)]
      rw [show (runOps 30 (c5fin k) []) = ⟨c5fin k, [], Except.ok .undef⟩ from rfl]
      refine ⟨by simp, ?_, ?_, rfl, ?_⟩
      · simp [c5drainTr, countJobExec, List.countP_append, List.countP_cons,
          List.countP_nil]
      · simp [c5drainTr, countRunStart, List.countP_append, List.countP_cons,
          List.countP_nil]
      · simp [c5drainTr]
  | succ m ih =>
      intro k
      rw [show List.replicate (m + 1) (Op.incOp 0 "n") ++ [Op.drainOp] =
          .incOp 0 "n" :: (List.replicate m (.incOp 0 "n") ++ [.drainOp]) from by
        rw [List.replicate_succ, List.cons_append]]
      rw [runOps_cons_ok (c5step k)]
      obtain ⟨h1, h2, h3, h4, h5⟩ := ih (k + 1)
      refine ⟨?_, ?_, ?_, h4, ?_⟩
      · rw [h1]
        congr 1
        omega
      · rw [countJobExec, List.countP_append, ← countJobExec, ← countJobExec, h2]
        rfl
      · rw [countRunStart, List.countP_append, ← countRunStart, ← countRunStart, h3]
        rfl
      · have hc : ((k : Int) + ((m : Nat) + 1 : Nat)) = ((k + 1 : Nat) : Int) + m := by
          push_cast
          ring
        rw [hc]
        exact List.mem_append.mpr (Or.inr h5)

/-- C5: any number `n ≥ 1` of synchronous increments of a batch-scheduled
effect's dependency produce exactly one job execution, in the tick's single
microtask flush, and that execution observes the final value `n`. -/
theorem C5_batching (n : Nat) (hn : 1 ≤ n) :
    (runOps 30 c5init (c5ops n)).res = Except.ok .undef ∧
    countJobExec 0 (runOps 30 c5init (c5ops n)).tr = 1 ∧
    countRunStart 0 (runOps 30 c5init (c5ops n)).tr = 2 ∧
    getStoreVal (runOps 30 c5init (c5ops n)).s 0 "n" = .num n ∧
    Ev.getEv 0 "n" (.num n) ∈ (runOps 30 c5init (c5ops n)).tr := by
  obtain ⟨m, rfl⟩ : ∃ m, n = m + 1 := ⟨n - 1, by omega⟩
  rw [show c5ops (m + 1) =
      c5regOp :: (.incOp 0 "n" :: (List.replicate m (.incOp 0 "n") ++ [.drainOp]))
    from by rw [c5ops, List.replicate_succ, List.cons_append]]
  rw [runOps_cons_ok c5regStep, runOps_cons_ok c5firstInc]
  obtain ⟨h1, h2, h3, h4, h5⟩ := c5tail m 1
  have hm1 : 1 + m = m + 1 := by omega
  rw [hm1] at h1
  have hc : ((1 : Nat) : Int) + (m : Int) = ((m + 1 : Nat) : Int) := by
    push_cast
    ring
  rw [hc] at h5
  refine ⟨h4, ?_, ?_, ?_, ?_⟩
  · rw [countJobExec, List.countP_append, List.countP_append,
      ← countJobExec, ← countJobExec, ← countJobExec, h2]
    rfl
  · rw [countRunStart, List.countP_append, List.countP_append,
      ← countRunStart, ← countRunStart, ← countRunStart, h3]
    rfl
  · rw [h1]
    simp [c5fin, getStoreVal, alistGet]
  · exact List.mem_append.mpr (Or.inr (List.mem_append.mpr (Or.inr h5)))

/-- Closed instance of C5 at `n = 2` (the spec's double-increment example). -/
theorem C5_witness :
    1 ≤ 2 ∧
    ((runOps 30 c5init (c5ops 2)).res = Except.ok .undef ∧
     countJobExec 0 (runOps 30 c5init (c5ops 2)).tr = 1 ∧
     countRunStart 0 (runOps 30 c5init (c5ops 2)).tr = 2 ∧
     getStoreVal (runOps 30 c5init (c5ops 2)).s 0 "n" = .num 2 ∧
     Ev.getEv 0 "n" (.num 2) ∈ (runOps 30 c5init (c5ops 2)).tr) :=
  ⟨by decide, C5_batching 2 (by decide)⟩

end VueReact
